import Mathlib

/-!
# CRC32C (RAMCloud `Crc32C.h`)

A shallow embedding of `intelCrc32C`, `softwareCrc32C` and the dispatcher
`Crc32C`, together with the bit-at-a-time reference CRC they are compared
against.

* 32-bit and 64-bit unsigned values are natural numbers; the only operations
  the code applies to the accumulator are xor, right shift, masking and table
  lookup, none of which can overflow, so the accumulator is constrained by the
  hypothesis `crc < 2 ^ 32` where it matters.  The two places where the source
  relies on 64-bit unsigned arithmetic (`4 - (intptr_t)p_buf` and `~(8 - 1)`)
  are written out modulo `2 ^ 64`.
* Memory is a function from byte addresses to byte contents; a pointer is an
  address.  Multi-byte loads are little-endian (x86-64).
* Each routine threads a `Machine` state: the accumulator, the current
  pointer, and the list of memory regions read so far.  Every dereference
  in the source logs its region: one load per hardware step, one byte per
  single-byte update, and in each bulk-loop iteration of the software path
  the word at `p_buf` once and the word at `p_buf + 4` three times.
-/

namespace RAMCloud

/-! ## Reference CRC -/

/-- The Castagnoli polynomial in reflected form. -/
def castagnoliReflected : Nat := 0x82F63B78

/-- One step of reflected polynomial division: shift right by one bit and
xor in the polynomial when the bit shifted out was 1. -/
def bitStep (c : Nat) : Nat :=
  (c >>> 1) ^^^ (if c % 2 = 1 then castagnoliReflected else 0)

/-- The step `bitStep` applied `k` times. -/
def bitSteps : Nat → Nat → Nat
  | 0, c => c
  | k + 1, c => bitSteps k (bitStep c)

/-- The bit-at-a-time reflected CRC of the specification: for each byte `b`
in order, `c := c xor b`, then eight division steps.  No initial or final
inversion. -/
def crcBitwise (c : Nat) : List Nat → Nat
  | [] => c
  | b :: bs => crcBitwise (bitSteps 8 (c ^^^ b)) bs

/-! ## Lookup tables (`namespace Crc32CSlicingBy8`) -/

/-- Modelled from the spec: the contents of the eight `extern const uint32_t
crc_tableil8_oNN[256]` arrays are not part of the source file.  The spec
requires them to be the slicing-by-8 tables generated for the reflected
Castagnoli polynomial: entry `i` of the table with `z` trailing zero bytes is
the remainder of byte `i` followed by `z` zero bytes, that is, `8 * (z + 1)`
division steps applied to `i`. -/
def slicingTable (z : Nat) : List Nat :=
  (List.range 256).map (fun i => bitSteps (8 * (z + 1)) i)

/-- Modelled from the spec: table for the last byte of a group (no trailing
zero byte); also the table of the single-byte update. -/
def crc_tableil8_o32 : List Nat := slicingTable 0
/-- Modelled from the spec: table for a byte followed by one zero byte. -/
def crc_tableil8_o40 : List Nat := slicingTable 1
/-- Modelled from the spec: table for a byte followed by two zero bytes. -/
def crc_tableil8_o48 : List Nat := slicingTable 2
/-- Modelled from the spec: table for a byte followed by three zero bytes. -/
def crc_tableil8_o56 : List Nat := slicingTable 3
/-- Modelled from the spec: table for a byte followed by four zero bytes. -/
def crc_tableil8_o64 : List Nat := slicingTable 4
/-- Modelled from the spec: table for a byte followed by five zero bytes. -/
def crc_tableil8_o72 : List Nat := slicingTable 5
/-- Modelled from the spec: table for a byte followed by six zero bytes. -/
def crc_tableil8_o80 : List Nat := slicingTable 6
/-- Modelled from the spec: table for a byte followed by seven zero bytes. -/
def crc_tableil8_o88 : List Nat := slicingTable 7

/-- Array subscript `table[i]`. -/
def lookup (table : List Nat) (i : Nat) : Nat := table.getD i 0

/-! ## Memory -/

/-- Memory contents: the byte stored at each address. -/
abbrev Mem := Nat → Nat

/-- Load of a `uint8_t`. -/
def load8 (mem : Mem) (p : Nat) : Nat := mem p % 256

/-- Little-endian load of a `uint16_t`. -/
def load16 (mem : Mem) (p : Nat) : Nat :=
  load8 mem p + 2 ^ 8 * load8 mem (p + 1)

/-- Little-endian load of a `uint32_t`. -/
def load32 (mem : Mem) (p : Nat) : Nat :=
  load16 mem p + 2 ^ 16 * load16 mem (p + 2)

/-- Little-endian load of a `uint64_t`. -/
def load64 (mem : Mem) (p : Nat) : Nat :=
  load32 mem p + 2 ^ 32 * load32 mem (p + 4)

/-- Load through a `const char*` (signed on x86-64), promoted to `int` and
converted to `uint32_t` for the xor with the accumulator: bytes `0x80..0xFF`
are sign-extended. -/
def loadChar (mem : Mem) (p : Nat) : Nat :=
  if load8 mem p < 128 then load8 mem p else 2 ^ 32 - 256 + load8 mem p

/-- The `n` bytes stored at addresses `a, a + 1, ..., a + n - 1`. -/
def bytesAt (mem : Mem) (a n : Nat) : List Nat :=
  (List.range n).map (fun i => load8 mem (a + i))

/-! ## Machine state -/

/-- State threaded through a checksum routine: the accumulator `crc`, the
current pointer `p`, and `log`, the regions `(address, width)` read so far,
oldest first. -/
structure Machine where
  crc : Nat
  p : Nat
  log : List (Nat × Nat)
deriving DecidableEq

/-- A loop whose body runs `n` times. -/
def loop (body : Machine → Machine) : Nat → Machine → Machine
  | 0, s => s
  | n + 1, s => loop body n (body s)

/-! ## Hardware path -/

/-- Modelled from the spec: the `crc32` instruction (emitted by the source as
raw opcode bytes) with an operand of `w` bits.  The operand is xored into the
accumulator and `w` steps of reflected Castagnoli division follow; nothing is
inverted. -/
def crc32 (w : Nat) (crc operand : Nat) : Nat :=
  bitSteps w (crc ^^^ operand)

/-- `CRC32Q(crc, p64, off)`: accumulate the quad-word `*(p64 + off)`. -/
def CRC32Q (mem : Mem) (off : Nat) (s : Machine) : Machine :=
  { s with crc := crc32 64 s.crc (load64 mem (s.p + 8 * off)),
           log := s.log ++ [(s.p + 8 * off, 8)] }

/-- `CRC32W(crc, p16, off)`: accumulate the 16-bit word `*(p16 + off)`. -/
def CRC32W (mem : Mem) (off : Nat) (s : Machine) : Machine :=
  { s with crc := crc32 16 s.crc (load16 mem (s.p + 2 * off)),
           log := s.log ++ [(s.p + 2 * off, 2)] }

/-- `CRC32B(crc, p8, off)`: accumulate the byte `*(p8 + off)`. -/
def CRC32B (mem : Mem) (off : Nat) (s : Machine) : Machine :=
  { s with crc := crc32 8 s.crc (load8 mem (s.p + off)),
           log := s.log ++ [(s.p + off, 1)] }

/-- Body of the first loop of `intelCrc32C`: four quad-words, then
`p64 += 4`. -/
def intelBody32 (mem : Mem) (s : Machine) : Machine :=
  let s := CRC32Q mem 0 s
  let s := CRC32Q mem 1 s
  let s := CRC32Q mem 2 s
  let s := CRC32Q mem 3 s
  { s with p := s.p + 32 }

/-- Body of the second loop of `intelCrc32C`: one quad-word, then `p64++`. -/
def intelBody8 (mem : Mem) (s : Machine) : Machine :=
  let s := CRC32Q mem 0 s
  { s with p := s.p + 8 }

/-- Body of the third loop of `intelCrc32C`: one 16-bit word, then `p16++`. -/
def intelBody2 (mem : Mem) (s : Machine) : Machine :=
  let s := CRC32W mem 0 s
  { s with p := s.p + 2 }

/-- The routine `intelCrc32C` as a state transformer, returning the final
machine state. -/
def intelRun (mem : Mem) (crc buffer bytes : Nat) : Machine :=
  let s : Machine := { crc := crc, p := buffer, log := [] }
  let remainder := bytes
  let chunk32 := remainder >>> 5
  let remainder := remainder &&& 31
  let s := loop (intelBody32 mem) chunk32 s
  let chunk8 := remainder >>> 3
  let remainder := remainder &&& 7
  let s := loop (intelBody8 mem) chunk8 s
  let chunk2 := remainder >>> 1
  let remainder := remainder &&& 1
  let s := loop (intelBody2 mem) chunk2 s
  if remainder ≠ 0 then CRC32B mem 0 s else s

/-- The value returned by `intelCrc32C(crc, buffer, bytes)`. -/
def intelCrc32C (mem : Mem) (crc buffer bytes : Nat) : Nat :=
  (intelRun mem crc buffer bytes).crc

/-! ## Software path -/

/-- The statement `crc = crc_tableil8_o32[(crc ^ *p_buf++) & 0x000000FF] ^
(crc >> 8);`. -/
def softByte (mem : Mem) (s : Machine) : Machine :=
  { crc := lookup crc_tableil8_o32 ((s.crc ^^^ loadChar mem s.p) &&& 0x000000FF)
             ^^^ (s.crc >>> 8),
    p := s.p + 1,
    log := s.log ++ [(s.p, 1)] }

/-- Body of the bulk loop of `softwareCrc32C`: one eight-byte group, read as
two 32-bit words.  The source dereferences the first word once and, after
`p_buf += 4`, the second word three times; each dereference is logged. -/
def softBody8 (mem : Mem) (s : Machine) : Machine :=
  let crc := s.crc ^^^ load32 mem s.p
  let p_buf := s.p + 4
  let term1 := lookup crc_tableil8_o88 (crc &&& 0x000000FF) ^^^
               lookup crc_tableil8_o80 ((crc >>> 8) &&& 0x000000FF)
  let term2 := crc >>> 16
  let crc := term1 ^^^
             lookup crc_tableil8_o72 (term2 &&& 0x000000FF) ^^^
             lookup crc_tableil8_o64 ((term2 >>> 8) &&& 0x000000FF)
  let term1 := lookup crc_tableil8_o56 (load32 mem p_buf &&& 0x000000FF) ^^^
               lookup crc_tableil8_o48 ((load32 mem p_buf >>> 8) &&& 0x000000FF)
  let term2 := load32 mem p_buf >>> 16
  let crc := crc ^^^ term1 ^^^
             lookup crc_tableil8_o40 (term2 &&& 0x000000FF) ^^^
             lookup crc_tableil8_o32 ((term2 >>> 8) &&& 0x000000FF)
  { crc := crc, p := p_buf + 4,
    log := s.log ++ [(s.p, 4), (p_buf, 4), (p_buf, 4), (p_buf, 4)] }

/-- The expression `(sizeof(int32_t) - (intptr_t)p_buf) & (sizeof(int32_t) -
1)`, evaluated in 64-bit unsigned arithmetic. -/
def initialBytes (data : Nat) : Nat :=
  ((4 + 2 ^ 64 - data % 2 ^ 64) % 2 ^ 64) &&& (4 - 1)

/-- The routine `softwareCrc32C` as a state transformer, returning the final
machine state. -/
def softwareRun (mem : Mem) (crc data length : Nat) : Machine :=
  let s : Machine := { crc := crc, p := data, log := [] }
  let initial_bytes := initialBytes data
  let initial_bytes := if length < initial_bytes then length else initial_bytes
  let s := loop (softByte mem) initial_bytes s
  let length := length - initial_bytes
  let running_length := length &&& (2 ^ 64 - 1 - (8 - 1))
  let end_bytes := length - running_length
  let s := loop (softBody8 mem) (running_length / 8) s
  loop (softByte mem) end_bytes s

/-- The value returned by `softwareCrc32C(crc, data, length)`. -/
def softwareCrc32C (mem : Mem) (crc data length : Nat) : Nat :=
  (softwareRun mem crc data length).crc

/-! ## Dispatcher -/

/-- The body of `Crc32C` once the static flag `hardware` has its value:
`haveSse42` is the result of the capability probe and `softwareOverride`
tells whether `PERF_DEBUG_RECOVERY_SOFTWARE_CRC32` is defined. -/
def Crc32C (haveSse42 softwareOverride : Bool) (mem : Mem)
    (crc buffer bytes : Nat) : Nat :=
  let hardware := haveSse42
  let hardware := if softwareOverride then false else hardware
  if hardware then intelCrc32C mem crc buffer bytes
  else softwareCrc32C mem crc buffer bytes

/-- Memory holding the byte list `B` at address `a` (zero elsewhere). -/
def place (a : Nat) (B : List Nat) : Mem :=
  fun q => if a ≤ q then B.getD (q - a) 0 else 0

/-! ## Auxiliary definitions for the statements -/

/-- The number whose little-endian byte representation is the given list. -/
def leValue : List Nat → Nat
  | [] => 0
  | b :: bs => b + 2 ^ 8 * leValue bs

/-- The regions `(address, width)` obtained by laying chunks of the given
widths one after another, starting at address `p`. -/
def chunksFrom : Nat → List Nat → List (Nat × Nat)
  | _, [] => []
  | p, w :: ws => (p, w) :: chunksFrom (p + w) ws

/-- The byte addresses covered by a list of regions, in the order in which
the regions are consumed. -/
def covered (log : List (Nat × Nat)) : List Nat :=
  (log.map (fun e => List.range' e.1 e.2)).flatten

/-- A state transformer that consumes chunks of the given widths, one after
another from the current pointer: it advances the pointer past them, logs
them, and updates a 32-bit accumulator to the reference CRC of their bytes. -/
structure Consumes (mem : Mem) (sizes : List Nat) (f : Machine → Machine) : Prop where
  crc : ∀ s, s.crc < 2 ^ 32 → (f s).crc = crcBitwise s.crc (bytesAt mem s.p sizes.sum)
  p : ∀ s, (f s).p = s.p + sizes.sum
  log : ∀ s, (f s).log = s.log ++ chunksFrom s.p sizes

/-- Widths of the chunks the hardware path is specified to consume for a
buffer of `bytes` bytes: blocks of four quad-words, then quad-words, then
16-bit words, then at most one byte. -/
def intelChunks (bytes : Nat) : List Nat :=
  (List.replicate (bytes / 32) [8, 8, 8, 8]).flatten ++
    List.replicate (bytes % 32 / 8) 8 ++
    List.replicate (bytes % 8 / 2) 2 ++
    List.replicate (bytes % 2) 1

/-- A state transformer that processes the next `w` bytes from the current
pointer: it advances the pointer past them and updates a 32-bit accumulator
to the reference CRC of these bytes.  Nothing is said about the log. -/
structure Updates (mem : Mem) (w : Nat) (f : Machine → Machine) : Prop where
  crc : ∀ s, s.crc < 2 ^ 32 → (f s).crc = crcBitwise s.crc (bytesAt mem s.p w)
  p : ∀ s, (f s).p = s.p + w

/-- The regions read by one iteration of the bulk loop of `softwareCrc32C`
that starts at pointer `p`: the word at `p` once, the word at `p + 4` three
times. -/
def groupRegions (p : Nat) : List (Nat × Nat) :=
  [(p, 4), (p + 4, 4), (p + 4, 4), (p + 4, 4)]

/-- The regions read by `k` successive iterations of the bulk loop of
`softwareCrc32C`, the first starting at pointer `p`. -/
def groupsFrom : Nat → Nat → List (Nat × Nat)
  | _, 0 => []
  | p, k + 1 => groupRegions p ++ groupsFrom (p + 8) k

/-- How often the software path is specified to read the byte at address
`q`, for a buffer of `n` bytes at address `a` with `L` leading and `R` bulk
bytes: never outside the buffer; once in the leading and trailing phases and
in the first word of an eight-byte group; three times in the second word of
an eight-byte group. -/
def softwareReadCount (a L R n q : Nat) : Nat :=
  if q < a ∨ a + n ≤ q then 0
  else if q < a + L then 1
  else if q < a + L + R then (if (q - (a + L)) % 8 < 4 then 1 else 3)
  else 1

/-- The three loops of `intelCrc32C`, before the final odd byte. -/
def intelLoops (mem : Mem) (bytes : Nat) (s : Machine) : Machine :=
  loop (intelBody2 mem) (bytes % 8 / 2)
    (loop (intelBody8 mem) (bytes % 32 / 8) (loop (intelBody32 mem) (bytes / 32) s))

/-- The nine ASCII bytes of the string "123456789". -/
def digits : List Nat := [0x31, 0x32, 0x33, 0x34, 0x35, 0x36, 0x37, 0x38, 0x39]

/-! ## Dispatcher with its cached flag -/

/-- The function-local `static bool hardware` of `Crc32C`: `none` before the
first call has run its initialiser, `some h` afterwards.  `probes` counts the
evaluations of `haveSse42()` so far. -/
structure Dispatcher where
  hardware : Option Bool
  probes : Nat
deriving DecidableEq

/-- The state before the first call. -/
def Dispatcher.initial : Dispatcher := { hardware := none, probes := 0 }

/-- The arguments of one call, together with the memory contents at the time
of the call. -/
structure CallArgs where
  mem : Mem
  crc : Nat
  buffer : Nat
  bytes : Nat

/-- The declaration `static bool hardware = haveSse42();`: the initialiser
runs only if the flag is not yet initialised.  The probe is an external
function; `haveSse42 k` is what its evaluation number `k` returns.  The result
is the value of the flag and the number of probe evaluations. -/
def staticInit (haveSse42 : Nat → Bool) (d : Dispatcher) : Bool × Nat :=
  match d.hardware with
  | some h => (h, d.probes)
  | none => (haveSse42 d.probes, d.probes + 1)

/-- One call of `Crc32C` on the dispatcher state: the new state and the
returned checksum.  `softwareOverride` tells whether
`PERF_DEBUG_RECOVERY_SOFTWARE_CRC32` is defined. -/
def Crc32CCall (haveSse42 : Nat → Bool) (softwareOverride : Bool)
    (d : Dispatcher) (x : CallArgs) : Dispatcher × Nat :=
  let hardware := (staticInit haveSse42 d).1
  let probes := (staticInit haveSse42 d).2
  let hardware := if softwareOverride then false else hardware
  ({ hardware := some hardware, probes := probes },
    if hardware then intelCrc32C x.mem x.crc x.buffer x.bytes
    else softwareCrc32C x.mem x.crc x.buffer x.bytes)

/-- A sequence of calls of `Crc32C`: for each call, the dispatcher state after
it and the checksum it returned. -/
def Crc32CCalls (haveSse42 : Nat → Bool) (softwareOverride : Bool) :
    Dispatcher → List CallArgs → List (Dispatcher × Nat)
  | _, [] => []
  | d, x :: xs =>
    Crc32CCall haveSse42 softwareOverride d x ::
      Crc32CCalls haveSse42 softwareOverride
        (Crc32CCall haveSse42 softwareOverride d x).1 xs

/-! ## Software path with bounds-checked table reads -/

/-- Array subscript `table[i]` that fails when `i` is out of range. -/
def lookupChecked (table : List Nat) (i : Nat) : Option Nat := table[i]?

/-- The single-byte update of `softwareCrc32C` with a checked table read. -/
def softByteChecked (mem : Mem) (s : Machine) : Option Machine :=
  (lookupChecked crc_tableil8_o32 ((s.crc ^^^ loadChar mem s.p) &&& 0x000000FF)).bind
    fun t =>
  some { crc := t ^^^ (s.crc >>> 8), p := s.p + 1, log := s.log ++ [(s.p, 1)] }

/-- Body of the bulk loop of `softwareCrc32C` with checked table reads. -/
def softBody8Checked (mem : Mem) (s : Machine) : Option Machine :=
  let crc := s.crc ^^^ load32 mem s.p
  let p_buf := s.p + 4
  (lookupChecked crc_tableil8_o88 (crc &&& 0x000000FF)).bind fun t88 =>
  (lookupChecked crc_tableil8_o80 ((crc >>> 8) &&& 0x000000FF)).bind fun t80 =>
  let term1 := t88 ^^^ t80
  let term2 := crc >>> 16
  (lookupChecked crc_tableil8_o72 (term2 &&& 0x000000FF)).bind fun t72 =>
  (lookupChecked crc_tableil8_o64 ((term2 >>> 8) &&& 0x000000FF)).bind fun t64 =>
  let crc := term1 ^^^ t72 ^^^ t64
  (lookupChecked crc_tableil8_o56 (load32 mem p_buf &&& 0x000000FF)).bind fun t56 =>
  (lookupChecked crc_tableil8_o48 ((load32 mem p_buf >>> 8) &&& 0x000000FF)).bind
    fun t48 =>
  let term1 := t56 ^^^ t48
  let term2 := load32 mem p_buf >>> 16
  (lookupChecked crc_tableil8_o40 (term2 &&& 0x000000FF)).bind fun t40 =>
  (lookupChecked crc_tableil8_o32 ((term2 >>> 8) &&& 0x000000FF)).bind fun t32 =>
  let crc := crc ^^^ term1 ^^^ t40 ^^^ t32
  some { crc := crc, p := p_buf + 4,
         log := s.log ++ [(s.p, 4), (p_buf, 4), (p_buf, 4), (p_buf, 4)] }

/-- A loop whose body runs `n` times and may fail. -/
def loopChecked (body : Machine → Option Machine) : Nat → Machine → Option Machine
  | 0, s => some s
  | n + 1, s => (body s).bind (loopChecked body n)

/-- The routine `softwareCrc32C` with checked table reads. -/
def softwareRunChecked (mem : Mem) (crc data length : Nat) : Option Machine :=
  let s : Machine := { crc := crc, p := data, log := [] }
  let initial_bytes := initialBytes data
  let initial_bytes := if length < initial_bytes then length else initial_bytes
  (loopChecked (softByteChecked mem) initial_bytes s).bind fun s =>
  let length := length - initial_bytes
  let running_length := length &&& (2 ^ 64 - 1 - (8 - 1))
  let end_bytes := length - running_length
  (loopChecked (softBody8Checked mem) (running_length / 8) s).bind fun s =>
  loopChecked (softByteChecked mem) end_bytes s

/-- The bytewise xor of two byte lists. -/
def xorBytes (X Y : List Nat) : List Nat := List.zipWith (fun x y => x ^^^ y) X Y

/-! ## Linearity of the division step -/

theorem shiftRight_xor (x y k : Nat) :
    (x ^^^ y) >>> k = (x >>> k) ^^^ (y >>> k) := by
  apply Nat.eq_of_testBit_eq
  intro i
  simp

theorem bitStep_xor (x y : Nat) : bitStep (x ^^^ y) = bitStep x ^^^ bitStep y := by
  unfold bitStep
  rw [shiftRight_xor]
  have hxy : (x ^^^ y) % 2 = 1 ↔ ¬(x % 2 = 1 ↔ y % 2 = 1) := Nat.xor_mod_two_eq_one
  by_cases hx : x % 2 = 1 <;> by_cases hy : y % 2 = 1
  · rw [if_neg (by rw [hxy]; simp [hx, hy]), if_pos hx, if_pos hy]
    have e : x >>> 1 ^^^ castagnoliReflected ^^^ (y >>> 1 ^^^ castagnoliReflected)
        = (x >>> 1 ^^^ y >>> 1) ^^^ (castagnoliReflected ^^^ castagnoliReflected) := by
      ac_rfl
    rw [e, Nat.xor_self]
  · rw [if_pos (by rw [hxy]; simp [hx, hy]), if_pos hx, if_neg hy]
    simp only [Nat.xor_zero]
    ac_rfl
  · rw [if_pos (by rw [hxy]; simp [hx, hy]), if_neg hx, if_pos hy]
    simp only [Nat.xor_zero]
    ac_rfl
  · rw [if_neg (by rw [hxy]; simp [hx, hy]), if_neg hx, if_neg hy]
    simp only [Nat.xor_zero]

theorem bitSteps_xor (k x y : Nat) :
    bitSteps k (x ^^^ y) = bitSteps k x ^^^ bitSteps k y := by
  induction k generalizing x y with
  | zero => rfl
  | succ k ih => simp only [bitSteps, bitStep_xor, ih]

theorem bitSteps_add (j k x : Nat) :
    bitSteps (j + k) x = bitSteps k (bitSteps j x) := by
  induction j generalizing x with
  | zero => simp [bitSteps]
  | succ j ih => rw [Nat.add_right_comm]; simp only [bitSteps, ih]

theorem bitSteps_shiftLeft (k y : Nat) : bitSteps k (y <<< k) = y := by
  induction k generalizing y with
  | zero => simp [bitSteps]
  | succ k ih =>
    have h : bitStep (y <<< (k + 1)) = y <<< k := by
      unfold bitStep
      have e : y <<< (k + 1) = 2 * (y <<< k) := by
        rw [Nat.shiftLeft_succ]
      rw [e]
      simp [Nat.shiftRight_eq_div_pow]
    simp only [bitSteps, h, ih]

theorem split_low (k x : Nat) : x = (x % 2 ^ k) ^^^ ((x >>> k) <<< k) := by
  apply Nat.eq_of_testBit_eq
  intro i
  simp only [Nat.testBit_xor, Nat.testBit_mod_two_pow, Nat.testBit_shiftLeft,
    Nat.testBit_shiftRight]
  by_cases h : i < k
  · simp [h, Nat.not_le.mpr h]
  · have h2 : k ≤ i := Nat.le_of_not_lt h
    simp [h, h2, Nat.add_sub_cancel' h2]

theorem bitSteps_split (k j x : Nat) :
    bitSteps (k + j) x = bitSteps (k + j) (x % 2 ^ k) ^^^ bitSteps j (x >>> k) := by
  conv => lhs; rw [split_low k x]
  rw [bitSteps_xor]
  congr 1
  rw [bitSteps_add, bitSteps_shiftLeft]


/-! ## Bounds -/

theorem castagnoliReflected_lt : castagnoliReflected < 2 ^ 32 := by decide

theorem bitStep_lt (k c : Nat) (h : c < 2 ^ (32 + (k + 1))) :
    bitStep c < 2 ^ (32 + k) := by
  unfold bitStep
  apply Nat.xor_lt_two_pow
  · rw [Nat.shiftRight_eq_div_pow, Nat.pow_one]
    have e : 2 ^ (32 + (k + 1)) = 2 * 2 ^ (32 + k) := by
      rw [← Nat.add_assoc, Nat.pow_succ, Nat.mul_comm]
    omega
  · have hp : (2 : Nat) ^ 32 ≤ 2 ^ (32 + k) :=
      Nat.pow_le_pow_right (by decide) (Nat.le_add_right 32 k)
    split
    · exact Nat.lt_of_lt_of_le castagnoliReflected_lt hp
    · exact Nat.lt_of_lt_of_le (by decide) hp

theorem bitSteps_lt (k c : Nat) (h : c < 2 ^ (32 + k)) : bitSteps k c < 2 ^ 32 := by
  induction k generalizing c with
  | zero => simpa [bitSteps] using h
  | succ k ih => exact ih _ (bitStep_lt k c h)

theorem lt_widen {c : Nat} (k : Nat) (h : c < 2 ^ 32) : c < 2 ^ (32 + k) :=
  Nat.lt_of_lt_of_le h (Nat.pow_le_pow_right (by decide) (Nat.le_add_right 32 k))

/-! ## Little-endian values -/

theorem add_mul_eq_xor (k b y : Nat) (h : b < 2 ^ k) :
    b + 2 ^ k * y = b ^^^ (y <<< k) := by
  apply Nat.eq_of_testBit_eq
  intro j
  rw [Nat.add_comm, Nat.testBit_mul_pow_two_add y h j]
  simp only [Nat.testBit_xor, Nat.testBit_shiftLeft]
  by_cases hj : j < k
  · simp [hj, Nat.not_le.mpr hj]
  · have h2 : k ≤ j := Nat.le_of_not_lt hj
    have hb : b.testBit j = false :=
      Nat.testBit_lt_two_pow (Nat.lt_of_lt_of_le h (Nat.pow_le_pow_right (by decide) h2))
    simp [hj, h2, hb]

theorem leValue_lt (bs : List Nat) (hb : ∀ b ∈ bs, b < 256) :
    leValue bs < 2 ^ (8 * bs.length) := by
  induction bs with
  | nil => simp [leValue]
  | cons b bs ih =>
    have h1 : b < 256 := hb b (List.mem_cons_self _ _)
    have h2 := ih (fun x hx => hb x (List.mem_cons_of_mem _ hx))
    have e : 2 ^ (8 * (b :: bs).length) = 2 ^ 8 * 2 ^ (8 * bs.length) := by
      rw [List.length_cons, Nat.mul_succ, Nat.add_comm, Nat.pow_add]
    rw [e]
    simp only [leValue]
    have : 2 ^ 8 * (leValue bs + 1) ≤ 2 ^ 8 * 2 ^ (8 * bs.length) :=
      Nat.mul_le_mul_left _ h2
    omega

theorem crcBitwise_eq_bitSteps (c : Nat) (bs : List Nat) (hb : ∀ b ∈ bs, b < 256) :
    crcBitwise c bs = bitSteps (8 * bs.length) (c ^^^ leValue bs) := by
  induction bs generalizing c with
  | nil => simp [crcBitwise, leValue, bitSteps]
  | cons b bs ih =>
    have h1 : b < 2 ^ 8 := hb b (List.mem_cons_self _ _)
    have e : 8 * (b :: bs).length = 8 + 8 * bs.length := by
      rw [List.length_cons, Nat.mul_succ, Nat.add_comm]
    rw [e, bitSteps_add]
    simp only [crcBitwise, leValue]
    rw [ih _ (fun x hx => hb x (List.mem_cons_of_mem _ hx)), add_mul_eq_xor 8 b _ h1,
      ← Nat.xor_assoc, bitSteps_xor 8 (c ^^^ b), bitSteps_shiftLeft]

theorem crcBitwise_append (c : Nat) (xs ys : List Nat) :
    crcBitwise c (xs ++ ys) = crcBitwise (crcBitwise c xs) ys := by
  induction xs generalizing c with
  | nil => rfl
  | cons x xs ih =>
    rw [List.cons_append]
    simp only [crcBitwise]
    exact ih _

theorem crcBitwise_lt (c : Nat) (bs : List Nat) (hc : c < 2 ^ 32)
    (hb : ∀ b ∈ bs, b < 256) : crcBitwise c bs < 2 ^ 32 := by
  induction bs generalizing c with
  | nil => simpa [crcBitwise] using hc
  | cons b bs ih =>
    simp only [crcBitwise]
    apply ih _ _ (fun x hx => hb x (List.mem_cons_of_mem _ hx))
    apply bitSteps_lt
    apply Nat.xor_lt_two_pow (lt_widen 8 hc)
    exact Nat.lt_of_lt_of_le (hb b (List.mem_cons_self _ _))
      (by decide : 256 ≤ 2 ^ (32 + 8))


/-! ## Tables and memory -/

theorem and_255 (x : Nat) : x &&& 0x000000FF = x % 256 :=
  Nat.and_pow_two_sub_one_eq_mod x 8

theorem xor_mod_two_pow (k x y : Nat) :
    (x ^^^ y) % 2 ^ k = (x % 2 ^ k) ^^^ (y % 2 ^ k) := by
  apply Nat.eq_of_testBit_eq
  intro i
  simp only [Nat.testBit_xor, Nat.testBit_mod_two_pow]
  by_cases h : i < k <;> simp [h]

theorem lookup_slicingTable (z i : Nat) (h : i < 256) :
    lookup (slicingTable z) i = bitSteps (8 * (z + 1)) i := by
  unfold lookup slicingTable
  rw [List.getD_eq_getElem?_getD, List.getElem?_map, List.getElem?_range h]
  rfl

theorem load8_lt (mem : Mem) (p : Nat) : load8 mem p < 256 :=
  Nat.mod_lt _ (by decide)

theorem load16_lt (mem : Mem) (p : Nat) : load16 mem p < 2 ^ 16 := by
  have h0 := load8_lt mem p
  have h1 := load8_lt mem (p + 1)
  unfold load16
  omega

theorem load32_lt (mem : Mem) (p : Nat) : load32 mem p < 2 ^ 32 := by
  have h0 := load16_lt mem p
  have h1 := load16_lt mem (p + 2)
  unfold load32
  omega

theorem load64_lt (mem : Mem) (p : Nat) : load64 mem p < 2 ^ 64 := by
  have h0 := load32_lt mem p
  have h1 := load32_lt mem (p + 4)
  unfold load64
  omega

theorem loadChar_mod (mem : Mem) (p : Nat) : loadChar mem p % 256 = load8 mem p := by
  have h := load8_lt mem p
  unfold loadChar
  split <;> omega

theorem bytesAt_zero (mem : Mem) (a : Nat) : bytesAt mem a 0 = [] := rfl

theorem bytesAt_succ (mem : Mem) (a n : Nat) :
    bytesAt mem a (n + 1) = load8 mem a :: bytesAt mem (a + 1) n := by
  unfold bytesAt
  rw [List.range_succ_eq_map, List.map_cons, List.map_map]
  congr 1
  apply List.map_congr_left
  intro i _
  simp only [Function.comp, Nat.succ_eq_add_one]
  congr 1
  omega

theorem bytesAt_add (mem : Mem) (a m n : Nat) :
    bytesAt mem a (m + n) = bytesAt mem a m ++ bytesAt mem (a + m) n := by
  induction m generalizing a with
  | zero => simp [bytesAt_zero]
  | succ m ih =>
    rw [Nat.add_right_comm, bytesAt_succ, bytesAt_succ, ih, List.cons_append]
    congr 3
    omega

theorem bytesAt_lt (mem : Mem) (a n : Nat) : ∀ b ∈ bytesAt mem a n, b < 256 := by
  intro b hb
  unfold bytesAt at hb
  rw [List.mem_map] at hb
  obtain ⟨i, _, rfl⟩ := hb
  exact load8_lt mem _

theorem length_bytesAt (mem : Mem) (a n : Nat) : (bytesAt mem a n).length = n := by
  simp [bytesAt]

theorem leValue_bytesAt_one (mem : Mem) (p : Nat) :
    leValue (bytesAt mem p 1) = load8 mem p := by
  simp [bytesAt_succ, bytesAt_zero, leValue]

theorem leValue_bytesAt_two (mem : Mem) (p : Nat) :
    leValue (bytesAt mem p 2) = load16 mem p := by
  simp [bytesAt_succ, bytesAt_zero, leValue, load16]

theorem leValue_bytesAt_four (mem : Mem) (p : Nat) :
    leValue (bytesAt mem p 4) = load32 mem p := by
  simp only [bytesAt_succ, bytesAt_zero, leValue, load32, load16, Nat.add_assoc]
  norm_num
  omega

theorem leValue_bytesAt_eight (mem : Mem) (p : Nat) :
    leValue (bytesAt mem p 8) = load64 mem p := by
  simp only [bytesAt_succ, bytesAt_zero, leValue, load64, load32, load16, Nat.add_assoc]
  norm_num
  omega


theorem bytesAt_place (a : Nat) (B : List Nat) (hB : ∀ b ∈ B, b < 256) :
    bytesAt (place a B) a B.length = B := by
  apply List.ext_getElem
  · exact length_bytesAt _ _ _
  · intro i h1 h2
    have hb : B[i] < 256 := hB _ (List.getElem_mem h2)
    simp only [bytesAt, List.getElem_map, List.getElem_range, load8, place,
      Nat.le_add_right, if_true, Nat.add_sub_cancel_left]
    rw [List.getD_eq_getElem?_getD, List.getElem?_eq_getElem h2]
    exact Nat.mod_eq_of_lt hb

/-- The first entries after zero of the generated tables are those of the
published slicing-by-8 tables for this polynomial. -/
theorem slicingTable_entry_one :
    lookup crc_tableil8_o32 1 = 0xF26B8303 ∧ lookup crc_tableil8_o40 1 = 0x13A29877 ∧
    lookup crc_tableil8_o48 1 = 0xA541927E ∧ lookup crc_tableil8_o56 1 = 0xDD45AAB8 ∧
    lookup crc_tableil8_o64 1 = 0x38116FAC ∧ lookup crc_tableil8_o72 1 = 0xEF306B19 ∧
    lookup crc_tableil8_o80 1 = 0x68032CC8 ∧ lookup crc_tableil8_o88 1 = 0x493C7D27 := by
  set_option maxRecDepth 100000 in decide

/-! ## Single steps -/

/-- The table-driven single-byte update is eight division steps after
xoring the byte in. -/
theorem byteUpdate_eq (c x b : Nat) (hb : b < 256) (hx : x % 256 = b) :
    lookup crc_tableil8_o32 ((c ^^^ x) &&& 0x000000FF) ^^^ (c >>> 8)
      = bitSteps 8 (c ^^^ b) := by
  have hm : (c ^^^ x) % 256 = (c ^^^ b) % 256 := by
    have e1 := xor_mod_two_pow 8 c x
    have e2 := xor_mod_two_pow 8 c b
    have e3 : b % 256 = b := Nat.mod_eq_of_lt hb
    norm_num at e1 e2
    rw [e1, e2, hx, e3]
  have hs : (c ^^^ b) >>> 8 = c >>> 8 := by
    rw [shiftRight_xor]
    have : b >>> 8 = 0 := by
      rw [Nat.shiftRight_eq_div_pow]
      exact Nat.div_eq_of_lt hb
    rw [this, Nat.xor_zero]
  have hl : (c ^^^ b) % 256 < 256 := Nat.mod_lt _ (by decide)
  rw [and_255, hm]
  unfold crc_tableil8_o32
  rw [lookup_slicingTable 0 _ hl]
  have h0 : bitSteps 0 (c >>> 8) = c >>> 8 := rfl
  have := bitSteps_split 8 0 (c ^^^ b)
  rw [Nat.add_zero, hs, h0] at this
  rw [this]
  rfl

theorem softByte_crc (mem : Mem) (s : Machine) :
    (softByte mem s).crc = crcBitwise s.crc (bytesAt mem s.p 1) := by
  simp only [softByte, bytesAt_succ, bytesAt_zero, crcBitwise]
  exact byteUpdate_eq s.crc _ _ (load8_lt mem s.p) (loadChar_mod mem s.p)

/-- Division of a 32-bit value, byte by byte: the four table terms of one
half of the slicing step. -/
theorem bitSteps_word (j y : Nat) (hy : y < 2 ^ 32) :
    bitSteps (32 + j) y
      = bitSteps (32 + j) (y % 256) ^^^ bitSteps (24 + j) ((y >>> 8) % 256)
        ^^^ bitSteps (16 + j) ((y >>> 16) % 256)
        ^^^ bitSteps (8 + j) (((y >>> 16) >>> 8) % 256) := by
  have e1 := bitSteps_split 8 (24 + j) y
  have e2 := bitSteps_split 8 (16 + j) (y >>> 8)
  have e3 := bitSteps_split 8 (8 + j) ((y >>> 8) >>> 8)
  have e4 := bitSteps_split 8 j (((y >>> 8) >>> 8) >>> 8)
  have z : (((y >>> 8) >>> 8) >>> 8) >>> 8 = 0 := by
    simp only [Nat.shiftRight_eq_div_pow]
    omega
  have a1 : 8 + (24 + j) = 32 + j := by omega
  have a2 : 8 + (16 + j) = 24 + j := by omega
  have a3 : 8 + (8 + j) = 16 + j := by omega
  have s2 : (y >>> 8) >>> 8 = y >>> 16 := by rw [← Nat.shiftRight_add]
  have s3 : (y >>> 16) >>> 8 = y >>> 24 := by rw [← Nat.shiftRight_add]
  have b0 : bitSteps j 0 = 0 := by
    have := bitSteps_shiftLeft j 0
    simpa using this
  rw [a1] at e1
  rw [a2] at e2
  rw [a3] at e3
  rw [z, b0, Nat.xor_zero] at e4
  norm_num at e1 e2 e3 e4
  rw [s2] at e2 e3 e4
  rw [e1, e2, e3, e4]
  simp only [Nat.xor_assoc]


theorem lookup_mod (z v : Nat) :
    lookup (slicingTable z) (v &&& 0x000000FF) = bitSteps (8 * (z + 1)) (v % 256) := by
  rw [and_255]
  exact lookup_slicingTable z _ (Nat.mod_lt _ (by decide))

/-- The slicing-by-8 combination of eight table reads equals 64 division
steps applied to the accumulator xored with the little-endian quad-word. -/
theorem slicing_eq (c w0 w1 : Nat) (hc : c < 2 ^ 32) (h0 : w0 < 2 ^ 32)
    (h1 : w1 < 2 ^ 32) :
    (lookup crc_tableil8_o88 ((c ^^^ w0) &&& 0x000000FF) ^^^
        lookup crc_tableil8_o80 (((c ^^^ w0) >>> 8) &&& 0x000000FF)) ^^^
      lookup crc_tableil8_o72 (((c ^^^ w0) >>> 16) &&& 0x000000FF) ^^^
      lookup crc_tableil8_o64 ((((c ^^^ w0) >>> 16) >>> 8) &&& 0x000000FF) ^^^
      (lookup crc_tableil8_o56 (w1 &&& 0x000000FF) ^^^
        lookup crc_tableil8_o48 ((w1 >>> 8) &&& 0x000000FF)) ^^^
      lookup crc_tableil8_o40 ((w1 >>> 16) &&& 0x000000FF) ^^^
      lookup crc_tableil8_o32 (((w1 >>> 16) >>> 8) &&& 0x000000FF)
    = bitSteps 64 (c ^^^ (w0 + 2 ^ 32 * w1)) := by
  have hx : c ^^^ w0 < 2 ^ 32 := Nat.xor_lt_two_pow hc h0
  have e : c ^^^ (w0 + 2 ^ 32 * w1) = (c ^^^ w0) ^^^ (w1 <<< 32) := by
    rw [add_mul_eq_xor 32 w0 w1 h0, Nat.xor_assoc]
  have hhi : bitSteps 64 (w1 <<< 32) = bitSteps 32 w1 := by
    rw [show (64 : Nat) = 32 + 32 from rfl, bitSteps_add, bitSteps_shiftLeft]
  have hA := bitSteps_word 32 (c ^^^ w0) hx
  have hB := bitSteps_word 0 w1 h1
  rw [e, bitSteps_xor, hhi, hA, hB]
  unfold crc_tableil8_o88 crc_tableil8_o80 crc_tableil8_o72 crc_tableil8_o64
    crc_tableil8_o56 crc_tableil8_o48 crc_tableil8_o40 crc_tableil8_o32
  simp only [lookup_mod, Nat.xor_assoc]

theorem softBody8_crc (mem : Mem) (s : Machine) (hc : s.crc < 2 ^ 32) :
    (softBody8 mem s).crc = crcBitwise s.crc (bytesAt mem s.p 8) := by
  rw [crcBitwise_eq_bitSteps _ _ (bytesAt_lt mem s.p 8), length_bytesAt,
    leValue_bytesAt_eight]
  have h := slicing_eq s.crc (load32 mem s.p) (load32 mem (s.p + 4)) hc
    (load32_lt mem s.p) (load32_lt mem (s.p + 4))
  simp only [softBody8, load64]
  exact h

theorem crc32_eq (w n c v : Nat) (bs : List Nat) (hw : w = 8 * n)
    (hl : bs.length = n) (hb : ∀ b ∈ bs, b < 256) (hv : leValue bs = v) :
    crc32 w c v = crcBitwise c bs := by
  rw [crcBitwise_eq_bitSteps c bs hb, hl, hv, hw]
  rfl

theorem CRC32Q_crc (mem : Mem) (off : Nat) (s : Machine) :
    (CRC32Q mem off s).crc = crcBitwise s.crc (bytesAt mem (s.p + 8 * off) 8) :=
  crc32_eq 64 8 _ _ _ rfl (length_bytesAt _ _ _) (bytesAt_lt _ _ _)
    (leValue_bytesAt_eight _ _)

theorem CRC32W_crc (mem : Mem) (off : Nat) (s : Machine) :
    (CRC32W mem off s).crc = crcBitwise s.crc (bytesAt mem (s.p + 2 * off) 2) :=
  crc32_eq 16 2 _ _ _ rfl (length_bytesAt _ _ _) (bytesAt_lt _ _ _)
    (leValue_bytesAt_two _ _)

theorem CRC32B_crc (mem : Mem) (off : Nat) (s : Machine) :
    (CRC32B mem off s).crc = crcBitwise s.crc (bytesAt mem (s.p + off) 1) :=
  crc32_eq 8 1 _ _ _ rfl (length_bytesAt _ _ _) (bytesAt_lt _ _ _)
    (leValue_bytesAt_one _ _)


/-! ## Chunks and loops -/

theorem chunksFrom_append (p : Nat) (xs ys : List Nat) :
    chunksFrom p (xs ++ ys) = chunksFrom p xs ++ chunksFrom (p + xs.sum) ys := by
  induction xs generalizing p with
  | nil => simp [chunksFrom]
  | cons x xs ih =>
    rw [List.cons_append]
    simp only [chunksFrom, List.sum_cons, List.cons_append]
    rw [ih, Nat.add_assoc]

theorem covered_chunksFrom (p : Nat) (ws : List Nat) :
    covered (chunksFrom p ws) = List.range' p ws.sum := by
  induction ws generalizing p with
  | nil => simp [chunksFrom, covered]
  | cons w ws ih =>
    have h := ih (p + w)
    unfold covered at h ⊢
    simp only [chunksFrom, List.map_cons, List.flatten_cons, h, List.sum_cons]
    rw [Nat.add_comm w ws.sum]
    exact List.range'_append_1 p w ws.sum

theorem Consumes.crc_lt {mem : Mem} {sizes : List Nat} {f : Machine → Machine}
    (h : Consumes mem sizes f) (s : Machine) (hs : s.crc < 2 ^ 32) :
    (f s).crc < 2 ^ 32 := by
  rw [h.crc s hs]
  exact crcBitwise_lt _ _ hs (bytesAt_lt _ _ _)

theorem Consumes.nil (mem : Mem) : Consumes mem [] (fun s => s) where
  crc := fun s _ => by simp [bytesAt_zero, crcBitwise]
  p := fun s => by simp
  log := fun s => by simp [chunksFrom]

theorem Consumes.comp {mem : Mem} {xs ys : List Nat} {f g : Machine → Machine}
    (hf : Consumes mem xs f) (hg : Consumes mem ys g) :
    Consumes mem (xs ++ ys) (fun s => g (f s)) where
  crc := fun s hs => by
    rw [hg.crc _ (hf.crc_lt s hs), hf.crc s hs, hf.p, List.sum_append, bytesAt_add,
      crcBitwise_append]
  p := fun s => by rw [hg.p, hf.p, List.sum_append, Nat.add_assoc]
  log := fun s => by
    rw [hg.log, hf.log, hf.p, chunksFrom_append, List.append_assoc]

theorem Consumes.loop {mem : Mem} {sizes : List Nat} {body : Machine → Machine}
    (h : Consumes mem sizes body) (n : Nat) :
    Consumes mem (List.replicate n sizes).flatten (RAMCloud.loop body n) := by
  induction n with
  | zero => exact Consumes.nil mem
  | succ n ih =>
    have := Consumes.comp h ih
    rw [List.replicate_succ, List.flatten_cons]
    exact this

theorem softByte_consumes (mem : Mem) : Consumes mem [1] (softByte mem) where
  crc := fun s _ => softByte_crc mem s
  p := fun _ => rfl
  log := fun _ => rfl

theorem Updates.acc_lt {mem : Mem} {w : Nat} {f : Machine → Machine}
    (h : Updates mem w f) (s : Machine) (hs : s.crc < 2 ^ 32) :
    (f s).crc < 2 ^ 32 := by
  rw [h.crc s hs]
  exact crcBitwise_lt _ _ hs (bytesAt_lt _ _ _)

theorem Updates.seq {mem : Mem} {v w : Nat} {f g : Machine → Machine}
    (hf : Updates mem v f) (hg : Updates mem w g) :
    Updates mem (v + w) (fun s => g (f s)) where
  crc := fun s hs => by
    rw [hg.crc _ (hf.acc_lt s hs), hf.crc s hs, hf.p, bytesAt_add, crcBitwise_append]
  p := fun s => by rw [hg.p, hf.p, Nat.add_assoc]

theorem Updates.iter {mem : Mem} {w : Nat} {body : Machine → Machine}
    (h : Updates mem w body) (n : Nat) :
    Updates mem (n * w) (RAMCloud.loop body n) := by
  induction n with
  | zero =>
    exact ⟨fun s _ => by simp [RAMCloud.loop, bytesAt_zero, crcBitwise],
      fun s => by simp [RAMCloud.loop]⟩
  | succ n ih =>
    have := Updates.seq h ih
    rw [Nat.succ_mul, Nat.add_comm]
    exact this

theorem softByte_updates (mem : Mem) : Updates mem 1 (softByte mem) where
  crc := fun s _ => softByte_crc mem s
  p := fun _ => rfl

theorem softBody8_updates (mem : Mem) : Updates mem 8 (softBody8 mem) where
  crc := fun s hs => softBody8_crc mem s hs
  p := fun s => by simp [softBody8, Nat.add_assoc]

theorem intelBody8_consumes (mem : Mem) : Consumes mem [8] (intelBody8 mem) where
  crc := fun s _ => by
    have := CRC32Q_crc mem 0 s
    simpa [intelBody8] using this
  p := fun _ => rfl
  log := fun _ => rfl

theorem intelBody2_consumes (mem : Mem) : Consumes mem [2] (intelBody2 mem) where
  crc := fun s _ => by
    have := CRC32W_crc mem 0 s
    simpa [intelBody2] using this
  p := fun _ => rfl
  log := fun _ => rfl

theorem intelBody32_consumes (mem : Mem) :
    Consumes mem [8, 8, 8, 8] (intelBody32 mem) where
  crc := fun s _ => by
    have e : bytesAt mem s.p [8, 8, 8, 8].sum
        = bytesAt mem (s.p + 8 * 0) 8 ++ (bytesAt mem (s.p + 8 * 1) 8
          ++ (bytesAt mem (s.p + 8 * 2) 8 ++ bytesAt mem (s.p + 8 * 3) 8)) := by
      have : [8, 8, 8, 8].sum = 8 + (8 + (8 + 8)) := rfl
      rw [this, bytesAt_add, bytesAt_add, bytesAt_add]
      rfl
    rw [e, crcBitwise_append, crcBitwise_append, crcBitwise_append]
    simp only [intelBody32]
    rw [← CRC32Q_crc mem 0 s]
    have h1 := CRC32Q_crc mem 1 (CRC32Q mem 0 s)
    have h2 := CRC32Q_crc mem 2 (CRC32Q mem 1 (CRC32Q mem 0 s))
    have h3 := CRC32Q_crc mem 3 (CRC32Q mem 2 (CRC32Q mem 1 (CRC32Q mem 0 s)))
    have p1 : (CRC32Q mem 0 s).p = s.p := rfl
    have p2 : (CRC32Q mem 1 (CRC32Q mem 0 s)).p = s.p := rfl
    have p3 : (CRC32Q mem 2 (CRC32Q mem 1 (CRC32Q mem 0 s))).p = s.p := rfl
    rw [p1] at h1
    rw [p2] at h2
    rw [p3] at h3
    rw [← h1, ← h2, ← h3]
  p := fun _ => rfl
  log := fun s => by
    simp [intelBody32, CRC32Q, chunksFrom, Nat.add_assoc]


/-! ## Chunk layouts -/

theorem sum_replicate_nat (n w : Nat) : (List.replicate n w).sum = n * w := by
  induction n with
  | zero => simp
  | succ n ih => rw [List.replicate_succ, List.sum_cons, ih]; ring

theorem sum_replicate_block (n : Nat) :
    (List.replicate n [8, 8, 8, 8]).flatten.sum = 32 * n := by
  induction n with
  | zero => simp
  | succ n ih =>
    rw [List.replicate_succ, List.flatten_cons, List.sum_append, ih]
    simp
    omega

theorem intelChunks_sum (n : Nat) : (intelChunks n).sum = n := by
  unfold intelChunks
  simp only [List.sum_append, sum_replicate_nat, sum_replicate_block]
  omega

theorem initialBytes_eq (a : Nat) : initialBytes a = (4 - a % 4) % 4 := by
  unfold initialBytes
  have h : ∀ x : Nat, x &&& (4 - 1) = x % 4 := fun x =>
    Nat.and_pow_two_sub_one_eq_mod x 2
  rw [h]
  omega

theorem and_not_seven (n : Nat) (hn : n < 2 ^ 64) :
    n &&& (2 ^ 64 - 1 - (8 - 1)) = n - n % 8 := by
  have e : n - n % 8 = (n >>> 3) <<< 3 := by
    rw [Nat.shiftLeft_eq, Nat.shiftRight_eq_div_pow]
    omega
  rw [e]
  apply Nat.eq_of_testBit_eq
  intro i
  have hm : (2 ^ 64 - 1 - (8 - 1) : Nat) = 2 ^ 64 - (7 + 1) := by decide
  have h7 : (7 : Nat) = 2 ^ 3 - 1 := by decide
  rw [hm, Nat.testBit_and, Nat.testBit_two_pow_sub_succ (by decide : 7 < 2 ^ 64), h7,
    Nat.testBit_two_pow_sub_one, Nat.testBit_shiftLeft, Nat.testBit_shiftRight]
  by_cases h3 : i < 3
  · simp [h3, Nat.not_le.mpr h3]
  · have h3' : 3 ≤ i := Nat.le_of_not_lt h3
    by_cases h64 : i < 64
    · simp [h3, h3', h64, Nat.add_sub_cancel' h3']
    · have hb : n.testBit i = false :=
        Nat.testBit_lt_two_pow (Nat.lt_of_lt_of_le hn
          (Nat.pow_le_pow_right (by decide) (Nat.le_of_not_lt h64)))
      simp [h3, h3', h64, Nat.add_sub_cancel' h3', hb]


/-! ## Whole routines -/

theorem flatten_replicate_one (n w : Nat) :
    (List.replicate n [w]).flatten = List.replicate n w :=
  List.flatten_replicate_singleton

theorem softwareRun_loops (mem : Mem) (crc data length : Nat) (hn : length < 2 ^ 64) :
    softwareRun mem crc data length =
      loop (softByte mem) ((length - min length ((4 - data % 4) % 4)) % 8)
        (loop (softBody8 mem) ((length - min length ((4 - data % 4) % 4)) / 8)
          (loop (softByte mem) (min length ((4 - data % 4) % 4))
            { crc := crc, p := data, log := [] })) := by
  have hL : (if length < initialBytes data then length else initialBytes data)
      = min length ((4 - data % 4) % 4) := by
    rw [initialBytes_eq]
    split <;> omega
  have hlt : length - min length ((4 - data % 4) % 4) < 2 ^ 64 := by omega
  have hR : ((length - min length ((4 - data % 4) % 4)) &&& (2 ^ 64 - 1 - (8 - 1))) / 8
      = (length - min length ((4 - data % 4) % 4)) / 8 := by
    rw [and_not_seven _ hlt]
    omega
  have hE : (length - min length ((4 - data % 4) % 4))
        - ((length - min length ((4 - data % 4) % 4)) &&& (2 ^ 64 - 1 - (8 - 1)))
      = (length - min length ((4 - data % 4) % 4)) % 8 := by
    rw [and_not_seven _ hlt]
    omega
  simp only [softwareRun, hL, hR, hE]

theorem softwareRun_crc (mem : Mem) (crc data length : Nat) (hc : crc < 2 ^ 32)
    (hn : length < 2 ^ 64) :
    (softwareRun mem crc data length).crc = crcBitwise crc (bytesAt mem data length) := by
  have u := (((softByte_updates mem).iter (min length ((4 - data % 4) % 4))).seq
    ((softBody8_updates mem).iter ((length - min length ((4 - data % 4) % 4)) / 8))).seq
    ((softByte_updates mem).iter ((length - min length ((4 - data % 4) % 4)) % 8))
  have h := u.crc { crc := crc, p := data, log := [] } hc
  have e : min length ((4 - data % 4) % 4) * 1
      + (length - min length ((4 - data % 4) % 4)) / 8 * 8
      + (length - min length ((4 - data % 4) % 4)) % 8 * 1 = length := by omega
  rw [e] at h
  rw [softwareRun_loops mem crc data length hn]
  exact h

theorem loop_softByte_log (mem : Mem) (k : Nat) (s : Machine) :
    (loop (softByte mem) k s).log = s.log ++ chunksFrom s.p (List.replicate k 1) := by
  have c := (softByte_consumes mem).loop k
  rw [flatten_replicate_one] at c
  exact c.log s

theorem loop_softByte_p (mem : Mem) (k : Nat) (s : Machine) :
    (loop (softByte mem) k s).p = s.p + k := by
  have h := ((softByte_updates mem).iter k).p s
  rw [Nat.mul_one] at h
  exact h

theorem loop_softBody8_p (mem : Mem) (k : Nat) (s : Machine) :
    (loop (softBody8 mem) k s).p = s.p + 8 * k := by
  have h := ((softBody8_updates mem).iter k).p s
  rw [Nat.mul_comm] at h
  exact h

theorem loop_softBody8_log (mem : Mem) (k : Nat) (s : Machine) :
    (loop (softBody8 mem) k s).log = s.log ++ groupsFrom s.p k := by
  induction k generalizing s with
  | zero => simp [loop, groupsFrom]
  | succ k ih =>
    have hp : (softBody8 mem s).p = s.p + 8 := (softBody8_updates mem).p s
    have hl : (softBody8 mem s).log = s.log ++ groupRegions s.p := rfl
    simp only [loop, groupsFrom]
    rw [ih, hp, hl, List.append_assoc]

theorem softwareRun_log (mem : Mem) (crc data length : Nat) (hn : length < 2 ^ 64) :
    (softwareRun mem crc data length).log
      = chunksFrom data (List.replicate (min length ((4 - data % 4) % 4)) 1) ++
        groupsFrom (data + min length ((4 - data % 4) % 4))
          ((length - min length ((4 - data % 4) % 4)) / 8) ++
        chunksFrom (data + min length ((4 - data % 4) % 4)
            + 8 * ((length - min length ((4 - data % 4) % 4)) / 8))
          (List.replicate ((length - min length ((4 - data % 4) % 4)) % 8) 1) := by
  rw [softwareRun_loops mem crc data length hn, loop_softByte_log, loop_softBody8_log,
    loop_softBody8_p, loop_softByte_log, loop_softByte_p]
  simp

theorem shiftRight_five (n : Nat) : n >>> 5 = n / 32 := Nat.shiftRight_eq_div_pow n 5
theorem and_31 (n : Nat) : n &&& 31 = n % 32 := Nat.and_pow_two_sub_one_eq_mod n 5
theorem shiftRight_three (n : Nat) : n >>> 3 = n / 8 := Nat.shiftRight_eq_div_pow n 3
theorem and_7 (n : Nat) : n &&& 7 = n % 8 := Nat.and_pow_two_sub_one_eq_mod n 3
theorem shiftRight_one (n : Nat) : n >>> 1 = n / 2 := Nat.shiftRight_eq_div_pow n 1
theorem and_1 (n : Nat) : n &&& 1 = n % 2 := Nat.and_pow_two_sub_one_eq_mod n 1

theorem intelLoops_consumes (mem : Mem) (bytes : Nat) :
    Consumes mem ((List.replicate (bytes / 32) [8, 8, 8, 8]).flatten ++
      List.replicate (bytes % 32 / 8) 8 ++ List.replicate (bytes % 8 / 2) 2)
      (intelLoops mem bytes) := by
  have c1 := (intelBody32_consumes mem).loop (bytes / 32)
  have c2 := (intelBody8_consumes mem).loop (bytes % 32 / 8)
  have c3 := (intelBody2_consumes mem).loop (bytes % 8 / 2)
  rw [flatten_replicate_one] at c2 c3
  exact (c1.comp c2).comp c3

theorem intelRun_eq (mem : Mem) (crc buffer bytes : Nat) :
    intelRun mem crc buffer bytes =
      if bytes % 2 ≠ 0 then
        CRC32B mem 0 (intelLoops mem bytes { crc := crc, p := buffer, log := [] })
      else intelLoops mem bytes { crc := crc, p := buffer, log := [] } := by
  have h8 : bytes % 32 % 8 = bytes % 8 := by omega
  have h2 : bytes % 8 % 2 = bytes % 2 := by omega
  simp only [intelRun, intelLoops, shiftRight_five, and_31, shiftRight_three, and_7,
    shiftRight_one, and_1, h8, h2]

theorem intelRun_crc (mem : Mem) (crc buffer bytes : Nat) (hc : crc < 2 ^ 32) :
    (intelRun mem crc buffer bytes).crc = crcBitwise crc (bytesAt mem buffer bytes) := by
  have h := intelLoops_consumes mem bytes
  have hs : ((List.replicate (bytes / 32) [8, 8, 8, 8]).flatten ++
      List.replicate (bytes % 32 / 8) 8 ++ List.replicate (bytes % 8 / 2) 2).sum
      = bytes - bytes % 2 := by
    simp only [List.sum_append, sum_replicate_nat, sum_replicate_block]
    omega
  rw [intelRun_eq]
  by_cases hodd : bytes % 2 ≠ 0
  · rw [if_pos hodd, CRC32B_crc, h.crc _ hc, h.p, hs, ← crcBitwise_append]
    have e : bytes = (bytes - bytes % 2) + 1 := by omega
    conv => rhs; rw [e, bytesAt_add]
    rfl
  · rw [if_neg hodd, h.crc _ hc, hs]
    have e : bytes - bytes % 2 = bytes := by omega
    rw [e]

theorem intelRun_log (mem : Mem) (crc buffer bytes : Nat) :
    (intelRun mem crc buffer bytes).log = chunksFrom buffer (intelChunks bytes) := by
  have h := intelLoops_consumes mem bytes
  have hs : ((List.replicate (bytes / 32) [8, 8, 8, 8]).flatten ++
      List.replicate (bytes % 32 / 8) 8 ++ List.replicate (bytes % 8 / 2) 2).sum
      = bytes - bytes % 2 := by
    simp only [List.sum_append, sum_replicate_nat, sum_replicate_block]
    omega
  rw [intelRun_eq]
  unfold intelChunks
  by_cases hodd : bytes % 2 ≠ 0
  · have e : bytes % 2 = 1 := by omega
    rw [if_pos hodd, e, chunksFrom_append, hs]
    simp only [CRC32B, h.log, h.p, hs]
    simp [chunksFrom]
  · have e : bytes % 2 = 0 := by omega
    rw [if_neg hodd, e, h.log]
    simp



/-! ## Shared consequences -/

theorem Crc32C_eq_crcBitwise (hw ov : Bool) (mem : Mem) (c a n : Nat)
    (hc : c < 2 ^ 32) (hn : n < 2 ^ 64) :
    Crc32C hw ov mem c a n = crcBitwise c (bytesAt mem a n) := by
  unfold Crc32C intelCrc32C softwareCrc32C
  cases hw <;> cases ov <;>
    simp [intelRun_crc mem c a n hc, softwareRun_crc mem c a n hc hn]

theorem crcBitwise_digits : crcBitwise 0 digits = 0x58E3FA20 := by
  set_option maxRecDepth 100000 in decide

theorem mem_covered_chunksFrom (p : Nat) (ws : List Nat) (q : Nat)
    (hq : q ∈ covered (chunksFrom p ws)) : p ≤ q ∧ q < p + ws.sum := by
  rw [covered_chunksFrom, List.mem_range'_1] at hq
  exact hq

/-! ## The claims -/

/-- C1: for every memory, buffer address `a`, length `n` and 32-bit
accumulator `c`, `softwareCrc32C` (and `Crc32C` whenever it takes the software
path) returns the bit-at-a-time reflected Castagnoli CRC of the `n` bytes
stored at `a`, with no initial or final inversion; in particular, for every
byte buffer `B` of length `n` placed at `a`, it returns the bit-at-a-time CRC
of `B`. -/
theorem softwareCrc32C_eq_crcBitwise (mem : Mem) (c a n : Nat)
    (hc : c < 2 ^ 32) (hn : n < 2 ^ 64) :
    softwareCrc32C mem c a n = crcBitwise c (bytesAt mem a n) ∧
    Crc32C false false mem c a n = crcBitwise c (bytesAt mem a n) ∧
    Crc32C false true mem c a n = crcBitwise c (bytesAt mem a n) ∧
    Crc32C true true mem c a n = crcBitwise c (bytesAt mem a n) ∧
    ∀ B : List Nat, (∀ b ∈ B, b < 256) → B.length = n →
      softwareCrc32C (place a B) c a n = crcBitwise c B := by
  refine ⟨softwareRun_crc mem c a n hc hn, softwareRun_crc mem c a n hc hn,
    softwareRun_crc mem c a n hc hn, softwareRun_crc mem c a n hc hn, ?_⟩
  intro B hB hlen
  unfold softwareCrc32C
  rw [softwareRun_crc (place a B) c a n hc hn, ← hlen, bytesAt_place a B hB]

theorem softwareCrc32C_eq_crcBitwise_witness :
    (0xDEADBEEF < 2 ^ 32 ∧ 9 < 2 ^ 64) ∧
    (softwareCrc32C (place 3 digits) 0xDEADBEEF 3 9
        = crcBitwise 0xDEADBEEF (bytesAt (place 3 digits) 3 9) ∧
      Crc32C false false (place 3 digits) 0xDEADBEEF 3 9
        = crcBitwise 0xDEADBEEF (bytesAt (place 3 digits) 3 9) ∧
      Crc32C false true (place 3 digits) 0xDEADBEEF 3 9
        = crcBitwise 0xDEADBEEF (bytesAt (place 3 digits) 3 9) ∧
      Crc32C true true (place 3 digits) 0xDEADBEEF 3 9
        = crcBitwise 0xDEADBEEF (bytesAt (place 3 digits) 3 9) ∧
      ∀ B : List Nat, (∀ b ∈ B, b < 256) → B.length = 9 →
        softwareCrc32C (place 3 B) 0xDEADBEEF 3 9 = crcBitwise 0xDEADBEEF B) :=
  ⟨⟨by decide, by decide⟩,
    softwareCrc32C_eq_crcBitwise (place 3 digits) 0xDEADBEEF 3 9 (by decide) (by decide)⟩

/-- C2: splitting invariance.  For every accumulator `c`, buffer of `n` bytes
at address `a` and split point `k ≤ n`, checksumming the first `k` bytes and
feeding the result into the checksum of the remaining `n - k` bytes (which
start at address `a + k`) gives the checksum of the whole buffer, on the
hardware path, on the software path, and through the dispatcher. -/
theorem Crc32C_split (hw ov : Bool) (mem : Mem) (c a n k : Nat)
    (hc : c < 2 ^ 32) (hn : n < 2 ^ 64) (hk : k ≤ n) :
    Crc32C hw ov mem (Crc32C hw ov mem c a k) (a + k) (n - k) = Crc32C hw ov mem c a n ∧
    softwareCrc32C mem (softwareCrc32C mem c a k) (a + k) (n - k)
      = softwareCrc32C mem c a n ∧
    intelCrc32C mem (intelCrc32C mem c a k) (a + k) (n - k) = intelCrc32C mem c a n := by
  have hk64 : k < 2 ^ 64 := Nat.lt_of_le_of_lt hk hn
  have hnk : n - k < 2 ^ 64 := Nat.lt_of_le_of_lt (Nat.sub_le n k) hn
  have hmid : crcBitwise c (bytesAt mem a k) < 2 ^ 32 :=
    crcBitwise_lt _ _ hc (bytesAt_lt _ _ _)
  have key : crcBitwise (crcBitwise c (bytesAt mem a k)) (bytesAt mem (a + k) (n - k))
      = crcBitwise c (bytesAt mem a n) := by
    rw [← crcBitwise_append, ← bytesAt_add, Nat.add_sub_cancel' hk]
  refine ⟨?_, ?_, ?_⟩
  · rw [Crc32C_eq_crcBitwise hw ov mem c a k hc hk64,
      Crc32C_eq_crcBitwise hw ov mem _ _ _ hmid hnk,
      Crc32C_eq_crcBitwise hw ov mem c a n hc hn, key]
  · unfold softwareCrc32C
    rw [softwareRun_crc mem c a k hc hk64, softwareRun_crc mem _ _ _ hmid hnk,
      softwareRun_crc mem c a n hc hn, key]
  · unfold intelCrc32C
    rw [intelRun_crc mem c a k hc, intelRun_crc mem _ _ _ hmid,
      intelRun_crc mem c a n hc, key]

theorem Crc32C_split_witness :
    (7 < 2 ^ 32 ∧ 9 < 2 ^ 64 ∧ 5 ≤ 9) ∧
    (Crc32C true false (place 2 digits) (Crc32C true false (place 2 digits) 7 2 5)
        (2 + 5) (9 - 5) = Crc32C true false (place 2 digits) 7 2 9 ∧
      softwareCrc32C (place 2 digits) (softwareCrc32C (place 2 digits) 7 2 5)
        (2 + 5) (9 - 5) = softwareCrc32C (place 2 digits) 7 2 9 ∧
      intelCrc32C (place 2 digits) (intelCrc32C (place 2 digits) 7 2 5)
        (2 + 5) (9 - 5) = intelCrc32C (place 2 digits) 7 2 9) :=
  ⟨⟨by decide, by decide, by decide⟩,
    Crc32C_split true false (place 2 digits) 7 2 9 5 (by decide) (by decide) (by decide)⟩

/-- C3: hardware/software equivalence.  For every memory, 32-bit accumulator
`c`, buffer address `a` and length `n`, `intelCrc32C` and `softwareCrc32C`
return the same value, the `crc32` instruction being reflected Castagnoli
division of its little-endian operand without inversion. -/
theorem intelCrc32C_eq_softwareCrc32C (mem : Mem) (c a n : Nat)
    (hc : c < 2 ^ 32) (hn : n < 2 ^ 64) :
    intelCrc32C mem c a n = softwareCrc32C mem c a n := by
  unfold intelCrc32C softwareCrc32C
  rw [intelRun_crc mem c a n hc, softwareRun_crc mem c a n hc hn]

theorem intelCrc32C_eq_softwareCrc32C_witness :
    (0xFFFFFFFF < 2 ^ 32 ∧ 9 < 2 ^ 64) ∧
    intelCrc32C (place 1 digits) 0xFFFFFFFF 1 9
      = softwareCrc32C (place 1 digits) 0xFFFFFFFF 1 9 :=
  ⟨⟨by decide, by decide⟩,
    intelCrc32C_eq_softwareCrc32C (place 1 digits) 0xFFFFFFFF 1 9 (by decide) (by decide)⟩

/-- C4: zero-length identity.  For every accumulator `c`, every memory and
every pointer value `a`, a call with length 0 returns `c` on the hardware
path, on the software path and through the dispatcher, and neither routine
consumes any byte: the final state is the initial one, with an empty log. -/
theorem Crc32C_zero_length (hw ov : Bool) (mem : Mem) (c a : Nat) :
    Crc32C hw ov mem c a 0 = c ∧
    intelCrc32C mem c a 0 = c ∧
    softwareCrc32C mem c a 0 = c ∧
    intelRun mem c a 0 = { crc := c, p := a, log := [] } ∧
    softwareRun mem c a 0 = { crc := c, p := a, log := [] } := by
  have hi : intelRun mem c a 0 = { crc := c, p := a, log := [] } := rfl
  have hs : softwareRun mem c a 0 = { crc := c, p := a, log := [] } := by
    have h0 : (if 0 < initialBytes a then 0 else initialBytes a) = 0 := by
      split <;> omega
    simp only [softwareRun, h0]
    rfl
  refine ⟨?_, ?_, ?_, hi, hs⟩
  · unfold Crc32C intelCrc32C softwareCrc32C
    cases hw <;> cases ov <;> simp [hi, hs]
  · unfold intelCrc32C
    rw [hi]
  · unfold softwareCrc32C
    rw [hs]


/-- C5 (as stated, refuted): with the nine ASCII bytes "123456789" stored at
address `0x1000` and accumulator 0, neither path of `Crc32C` returns
`0xE3069283`; both return `0x58E3FA20`. -/
theorem Crc32C_digits_ne_check_value :
    Crc32C true false (place 0x1000 digits) 0 0x1000 9 ≠ 0xE3069283 ∧
    Crc32C false false (place 0x1000 digits) 0 0x1000 9 ≠ 0xE3069283 ∧
    Crc32C true false (place 0x1000 digits) 0 0x1000 9 = 0x58E3FA20 ∧
    Crc32C false false (place 0x1000 digits) 0 0x1000 9 = 0x58E3FA20 := by
  set_option maxRecDepth 100000 in decide

/-- C5 (amended): the checksum of the nine ASCII bytes "123456789", wherever
they are stored, computed by `Crc32C` starting from accumulator 0 equals
`0x58E3FA20`, on either path. -/
theorem Crc32C_digits (hw ov : Bool) (mem : Mem) (a : Nat)
    (hB : bytesAt mem a 9 = digits) :
    Crc32C hw ov mem 0 a 9 = 0x58E3FA20 := by
  rw [Crc32C_eq_crcBitwise hw ov mem 0 a 9 (by decide) (by decide), hB]
  exact crcBitwise_digits

theorem Crc32C_digits_witness :
    bytesAt (place 6 digits) 6 9 = digits ∧
    Crc32C true false (place 6 digits) 0 6 9 = 0x58E3FA20 :=
  ⟨by decide, Crc32C_digits true false (place 6 digits) 6 (by decide)⟩

/-- C6: alignment insensitivity.  If the `n` bytes stored at address `a1` of
one memory equal the `n` bytes stored at address `a2` of another, then the
two checksums from the same 32-bit accumulator are equal, through the
dispatcher and on each path; for `softwareCrc32C` the number of leading bytes
handled before the bulk loop therefore does not matter. -/
theorem Crc32C_alignment_insensitive (hw ov : Bool) (mem1 mem2 : Mem)
    (c a1 a2 n : Nat) (hc : c < 2 ^ 32) (hn : n < 2 ^ 64)
    (hB : bytesAt mem1 a1 n = bytesAt mem2 a2 n) :
    Crc32C hw ov mem1 c a1 n = Crc32C hw ov mem2 c a2 n ∧
    softwareCrc32C mem1 c a1 n = softwareCrc32C mem2 c a2 n ∧
    intelCrc32C mem1 c a1 n = intelCrc32C mem2 c a2 n := by
  refine ⟨?_, ?_, ?_⟩
  · rw [Crc32C_eq_crcBitwise hw ov mem1 c a1 n hc hn,
      Crc32C_eq_crcBitwise hw ov mem2 c a2 n hc hn, hB]
  · unfold softwareCrc32C
    rw [softwareRun_crc mem1 c a1 n hc hn, softwareRun_crc mem2 c a2 n hc hn, hB]
  · unfold intelCrc32C
    rw [intelRun_crc mem1 c a1 n hc, intelRun_crc mem2 c a2 n hc, hB]

theorem Crc32C_alignment_insensitive_witness :
    (11 < 2 ^ 32 ∧ 9 < 2 ^ 64 ∧
      bytesAt (place 4 digits) 4 9 = bytesAt (place 7 digits) 7 9) ∧
    (Crc32C false false (place 4 digits) 11 4 9
        = Crc32C false false (place 7 digits) 11 7 9 ∧
      softwareCrc32C (place 4 digits) 11 4 9 = softwareCrc32C (place 7 digits) 11 7 9 ∧
      intelCrc32C (place 4 digits) 11 4 9 = intelCrc32C (place 7 digits) 11 7 9) :=
  ⟨⟨by decide, by decide, by decide⟩,
    Crc32C_alignment_insensitive false false (place 4 digits) (place 7 digits) 11 4 7 9
      (by decide) (by decide) (by decide)⟩

/-- C7: dispatcher selection.  `Crc32C` returns the result of `intelCrc32C`
when the capability probe reports true and the software override is off, and
the result of `softwareCrc32C` in every other case. -/
theorem Crc32C_dispatch (mem : Mem) (crc buffer bytes : Nat) :
    Crc32C true false mem crc buffer bytes = intelCrc32C mem crc buffer bytes ∧
    Crc32C false false mem crc buffer bytes = softwareCrc32C mem crc buffer bytes ∧
    Crc32C true true mem crc buffer bytes = softwareCrc32C mem crc buffer bytes ∧
    Crc32C false true mem crc buffer bytes = softwareCrc32C mem crc buffer bytes :=
  ⟨rfl, rfl, rfl, rfl⟩

/-- C8: slicing-by-8 step equivalence.  From every state with a 32-bit
accumulator, one iteration of the bulk loop of `softwareCrc32C` leaves the
same accumulator, again a 32-bit value, and the same pointer as eight
successive single-byte updates. -/
theorem softBody8_eq_eight_softByte (mem : Mem) (s : Machine) (hc : s.crc < 2 ^ 32) :
    (softBody8 mem s).crc = (loop (softByte mem) 8 s).crc ∧
    (softBody8 mem s).p = (loop (softByte mem) 8 s).p ∧
    (softBody8 mem s).crc < 2 ^ 32 := by
  have h8 := (softBody8_updates mem)
  have h1 := (softByte_updates mem).iter 8
  refine ⟨?_, ?_, h8.acc_lt s hc⟩
  · rw [h8.crc s hc, h1.crc s hc]
  · rw [h8.p, h1.p]

theorem softBody8_eq_eight_softByte_witness :
    (0x12345678 < 2 ^ 32) ∧
    ((softBody8 (place 16 digits) { crc := 0x12345678, p := 16, log := [] }).crc
        = (loop (softByte (place 16 digits)) 8
            { crc := 0x12345678, p := 16, log := [] }).crc ∧
      (softBody8 (place 16 digits) { crc := 0x12345678, p := 16, log := [] }).p
        = (loop (softByte (place 16 digits)) 8
            { crc := 0x12345678, p := 16, log := [] }).p ∧
      (softBody8 (place 16 digits) { crc := 0x12345678, p := 16, log := [] }).crc
        < 2 ^ 32) :=
  ⟨by decide,
    softBody8_eq_eight_softByte (place 16 digits) { crc := 0x12345678, p := 16, log := [] }
      (by decide)⟩

/-- C9: hardware chunking.  For every length `n`, `intelCrc32C` (a total
function) consumes, in this order, `n / 32` blocks of four quad-words, then
`n % 32 / 8` quad-words, then `n % 8 / 2` 16-bit words, then one byte iff `n`
is odd, laid out consecutively from the buffer address; the widths add up to
`n`, the byte addresses covered are exactly `buffer, ..., buffer + n - 1`, each
once and in order, and nothing at offset `n` or beyond is touched. -/
theorem intelCrc32C_chunking (mem : Mem) (crc buffer n : Nat) :
    (intelRun mem crc buffer n).log = chunksFrom buffer (intelChunks n) ∧
    32 * (n / 32) + 8 * (n % 32 / 8) + 2 * (n % 8 / 2) + n % 2 = n ∧
    n % 32 / 8 ≤ 3 ∧ n % 8 / 2 ≤ 3 ∧ n % 2 ≤ 1 ∧
    (intelChunks n).sum = n ∧
    covered (intelRun mem crc buffer n).log = List.range' buffer n ∧
    ∀ q ∈ covered (intelRun mem crc buffer n).log, buffer ≤ q ∧ q < buffer + n := by
  have hlog := intelRun_log mem crc buffer n
  refine ⟨hlog, by omega, by omega, by omega, by omega, intelChunks_sum n, ?_, ?_⟩
  · rw [hlog, covered_chunksFrom, intelChunks_sum]
  · intro q hq
    rw [hlog] at hq
    have := mem_covered_chunksFrom buffer (intelChunks n) q hq
    rwa [intelChunks_sum] at this

/-! ## Injectivity of the division step on 32-bit values -/

theorem bitStep_lt32 (x : Nat) (hx : x < 2 ^ 32) : bitStep x < 2 ^ 32 :=
  bitStep_lt 0 x (lt_widen 1 hx)

theorem bitSteps_lt32 (k x : Nat) (hx : x < 2 ^ 32) : bitSteps k x < 2 ^ 32 :=
  bitSteps_lt k x (lt_widen k hx)

theorem testBit_31_bitStep (x : Nat) (hx : x < 2 ^ 32) :
    (bitStep x).testBit 31 = decide (x % 2 = 1) := by
  have h32 : x.testBit (1 + 31) = false := Nat.testBit_lt_two_pow hx
  unfold bitStep
  rw [Nat.testBit_xor, Nat.testBit_shiftRight, h32]
  by_cases h : x % 2 = 1
  · rw [if_pos h]
    have : castagnoliReflected.testBit 31 = true := by decide
    simp [h, this]
  · rw [if_neg h]
    simp [h]

theorem bitStep_inj (x y : Nat) (hx : x < 2 ^ 32) (hy : y < 2 ^ 32)
    (h : bitStep x = bitStep y) : x = y := by
  have px := testBit_31_bitStep x hx
  have py := testBit_31_bitStep y hy
  rw [h, py] at px
  have hpar : (y % 2 = 1) ↔ (x % 2 = 1) := by simpa using px
  have hm : (if x % 2 = 1 then castagnoliReflected else 0)
      = (if y % 2 = 1 then castagnoliReflected else 0) := by
    by_cases hx1 : x % 2 = 1
    · rw [if_pos hx1, if_pos (hpar.mpr hx1)]
    · rw [if_neg hx1, if_neg (fun hy1 => hx1 (hpar.mp hy1))]
  unfold bitStep at h
  rw [hm] at h
  have hs : x >>> 1 = y >>> 1 := Nat.xor_left_inj.mp h
  rw [Nat.shiftRight_eq_div_pow, Nat.shiftRight_eq_div_pow, Nat.pow_one] at hs
  by_cases hx1 : x % 2 = 1
  · have := hpar.mpr hx1
    omega
  · have : ¬ y % 2 = 1 := fun hy1 => hx1 (hpar.mp hy1)
    omega

theorem bitSteps_inj (k x y : Nat) (hx : x < 2 ^ 32) (hy : y < 2 ^ 32)
    (h : bitSteps k x = bitSteps k y) : x = y := by
  induction k generalizing x y with
  | zero => simpa [bitSteps] using h
  | succ k ih =>
    simp only [bitSteps] at h
    exact bitStep_inj x y hx hy (ih _ _ (bitStep_lt32 x hx) (bitStep_lt32 y hy) h)

theorem xor_byte_lt (c b : Nat) (hc : c < 2 ^ 32) (hb : b < 256) : c ^^^ b < 2 ^ 32 :=
  Nat.xor_lt_two_pow hc (Nat.lt_of_lt_of_le hb (by decide))

theorem crcBitwise_inj (c d : Nat) (bs : List Nat) (hc : c < 2 ^ 32) (hd : d < 2 ^ 32)
    (hb : ∀ b ∈ bs, b < 256) (h : crcBitwise c bs = crcBitwise d bs) : c = d := by
  induction bs generalizing c d with
  | nil => simpa [crcBitwise] using h
  | cons b bs ih =>
    have hb0 : b < 256 := hb b (List.mem_cons_self _ _)
    simp only [crcBitwise] at h
    have h1 := ih _ _ (bitSteps_lt32 8 _ (xor_byte_lt c b hc hb0))
      (bitSteps_lt32 8 _ (xor_byte_lt d b hd hb0))
      (fun x hx => hb x (List.mem_cons_of_mem _ hx)) h
    have h2 := bitSteps_inj 8 _ _ (xor_byte_lt c b hc hb0) (xor_byte_lt d b hd hb0) h1
    exact Nat.xor_left_inj.mp h2

/-! ## Linearity of the reference CRC -/

theorem crcBitwise_xorBytes (c1 c2 : Nat) (X Y : List Nat) (h : X.length = Y.length) :
    crcBitwise (c1 ^^^ c2) (xorBytes X Y) = crcBitwise c1 X ^^^ crcBitwise c2 Y := by
  induction X generalizing Y c1 c2 with
  | nil =>
    cases Y with
    | nil => rfl
    | cons y Y => simp at h
  | cons x X ih =>
    cases Y with
    | nil => simp at h
    | cons y Y =>
      have hl : X.length = Y.length := by simpa using h
      have e : c1 ^^^ c2 ^^^ (x ^^^ y) = (c1 ^^^ x) ^^^ (c2 ^^^ y) := by ac_rfl
      simp only [xorBytes, List.zipWith_cons_cons, crcBitwise]
      rw [e, bitSteps_xor]
      exact ih _ _ Y hl

theorem crcBitwise_zeros (n : Nat) : crcBitwise 0 (List.replicate n 0) = 0 := by
  induction n with
  | zero => rfl
  | succ n ih =>
    rw [List.replicate_succ]
    simp only [crcBitwise]
    have : bitSteps 8 (0 ^^^ 0) = 0 := by decide
    rw [this]
    exact ih

/-! ## Buffers described bytewise -/

theorem bytesAt_congr (m m' : Mem) (a a' n : Nat)
    (h : ∀ i, i < n → load8 m (a + i) = load8 m' (a' + i)) :
    bytesAt m a n = bytesAt m' a' n := by
  unfold bytesAt
  apply List.map_congr_left
  intro i hi
  exact h i (List.mem_range.mp hi)

theorem bytesAt_zeros (m : Mem) (a n : Nat) (h : ∀ i, i < n → load8 m (a + i) = 0) :
    bytesAt m a n = List.replicate n 0 := by
  induction n generalizing a with
  | zero => rfl
  | succ n ih =>
    rw [bytesAt_succ, List.replicate_succ, ih (a + 1)]
    · have := h 0 (Nat.succ_pos n)
      rw [Nat.add_zero] at this
      rw [this]
    · intro i hi
      have := h (i + 1) (Nat.succ_lt_succ hi)
      rw [show a + (i + 1) = a + 1 + i by omega] at this
      exact this

theorem bytesAt_xorBytes (m mX mY : Mem) (a aX aY n : Nat)
    (h : ∀ i, i < n → load8 m (a + i) = load8 mX (aX + i) ^^^ load8 mY (aY + i)) :
    bytesAt m a n = xorBytes (bytesAt mX aX n) (bytesAt mY aY n) := by
  induction n generalizing a aX aY with
  | zero => rfl
  | succ n ih =>
    rw [bytesAt_succ, bytesAt_succ, bytesAt_succ]
    simp only [xorBytes, List.zipWith_cons_cons]
    have h0 := h 0 (Nat.succ_pos n)
    simp only [Nat.add_zero] at h0
    rw [h0]
    congr 1
    apply ih
    intro i hi
    have := h (i + 1) (Nat.succ_lt_succ hi)
    rw [show a + (i + 1) = a + 1 + i by omega, show aX + (i + 1) = aX + 1 + i by omega,
      show aY + (i + 1) = aY + 1 + i by omega] at this
    exact this


/-! ## Checked table reads -/

theorem length_slicingTable (z : Nat) : (slicingTable z).length = 256 := by
  simp [slicingTable]

theorem and_255_lt (x : Nat) : x &&& 0x000000FF < 256 := by
  rw [and_255]
  exact Nat.mod_lt _ (by decide)

theorem lookupChecked_slicingTable (z x : Nat) :
    lookupChecked (slicingTable z) (x &&& 0x000000FF)
      = some (lookup (slicingTable z) (x &&& 0x000000FF)) := by
  have h : x &&& 0x000000FF < (slicingTable z).length := by
    rw [length_slicingTable]
    exact and_255_lt x
  unfold lookupChecked lookup
  rw [List.getD_eq_getElem?_getD, List.getElem?_eq_getElem h]
  rfl

theorem softByteChecked_eq (mem : Mem) (s : Machine) :
    softByteChecked mem s = some (softByte mem s) := by
  unfold softByteChecked softByte crc_tableil8_o32
  rw [lookupChecked_slicingTable]
  rfl

theorem softBody8Checked_eq (mem : Mem) (s : Machine) :
    softBody8Checked mem s = some (softBody8 mem s) := by
  unfold softBody8Checked softBody8 crc_tableil8_o88 crc_tableil8_o80 crc_tableil8_o72
    crc_tableil8_o64 crc_tableil8_o56 crc_tableil8_o48 crc_tableil8_o40 crc_tableil8_o32
  simp only [lookupChecked_slicingTable, Option.some_bind]

theorem loopChecked_eq (body : Machine → Option Machine) (body' : Machine → Machine)
    (h : ∀ s, body s = some (body' s)) (n : Nat) (s : Machine) :
    loopChecked body n s = some (loop body' n s) := by
  induction n generalizing s with
  | zero => rfl
  | succ n ih =>
    simp only [loopChecked, loop, h, Option.some_bind]
    exact ih _

theorem softwareRunChecked_eq (mem : Mem) (crc data length : Nat) :
    softwareRunChecked mem crc data length = some (softwareRun mem crc data length) := by
  simp only [softwareRunChecked, softwareRun,
    loopChecked_eq _ _ (softByteChecked_eq mem), loopChecked_eq _ _ (softBody8Checked_eq mem),
    Option.some_bind]

/-! ## The cached flag -/

theorem Crc32CCall_initial (haveSse42 : Nat → Bool) (ov : Bool) (x : CallArgs) :
    Crc32CCall haveSse42 ov Dispatcher.initial x
      = ({ hardware := some (if ov then false else haveSse42 0), probes := 1 },
          Crc32C (haveSse42 0) ov x.mem x.crc x.buffer x.bytes) := rfl

theorem Crc32CCall_set (haveSse42 : Nat → Bool) (ov : Bool) (h0 : Bool) (k : Nat)
    (x : CallArgs) :
    Crc32CCall haveSse42 ov
        { hardware := some (if ov then false else h0), probes := k } x
      = ({ hardware := some (if ov then false else h0), probes := k },
          Crc32C h0 ov x.mem x.crc x.buffer x.bytes) := by
  cases ov <;> rfl

theorem Crc32CCalls_set (haveSse42 : Nat → Bool) (ov : Bool) (h0 : Bool) (k : Nat)
    (xs : List CallArgs) :
    Crc32CCalls haveSse42 ov { hardware := some (if ov then false else h0), probes := k } xs
      = xs.map (fun x =>
          (({ hardware := some (if ov then false else h0), probes := k } : Dispatcher),
            Crc32C h0 ov x.mem x.crc x.buffer x.bytes)) := by
  induction xs with
  | nil => rfl
  | cons x xs ih =>
    simp only [Crc32CCalls, List.map_cons, Crc32CCall_set]
    rw [ih]

theorem Crc32CCalls_initial (haveSse42 : Nat → Bool) (ov : Bool) (xs : List CallArgs) :
    Crc32CCalls haveSse42 ov Dispatcher.initial xs
      = xs.map (fun x =>
          (({ hardware := some (if ov then false else haveSse42 0), probes := 1 } : Dispatcher),
            Crc32C (haveSse42 0) ov x.mem x.crc x.buffer x.bytes)) := by
  cases xs with
  | nil => rfl
  | cons x xs =>
    simp only [Crc32CCalls, List.map_cons, Crc32CCall_initial]
    rw [Crc32CCalls_set]


/-! ## Further shared consequences -/

theorem crcBitwise_digits_ones : crcBitwise 0xFFFFFFFF digits = 0x1CF96D7C := by
  set_option maxRecDepth 100000 in decide

theorem crcBitwise_ne_of_single (c x y : Nat) (pre suf : List Nat) (hc : c < 2 ^ 32)
    (hpre : ∀ b ∈ pre, b < 256) (hsuf : ∀ b ∈ suf, b < 256) (hx : x < 256) (hy : y < 256)
    (hxy : x ≠ y) :
    crcBitwise c (pre ++ x :: suf) ≠ crcBitwise c (pre ++ y :: suf) := by
  intro h
  rw [crcBitwise_append, crcBitwise_append] at h
  simp only [crcBitwise] at h
  have h1 : crcBitwise c pre < 2 ^ 32 := crcBitwise_lt c pre hc hpre
  have h2 := crcBitwise_inj _ _ suf (bitSteps_lt32 8 _ (xor_byte_lt _ x h1 hx))
    (bitSteps_lt32 8 _ (xor_byte_lt _ y h1 hy)) hsuf h
  have h3 := bitSteps_inj 8 _ _ (xor_byte_lt _ x h1 hx) (xor_byte_lt _ y h1 hy) h2
  exact hxy (Nat.xor_right_inj.mp h3)

theorem bytesAt_split_at (mem : Mem) (a n i : Nat) (hi : i < n) :
    bytesAt mem a n
      = bytesAt mem a i ++ load8 mem (a + i) :: bytesAt mem (a + i + 1) (n - i - 1) := by
  have e : n = i + ((n - i - 1) + 1) := by omega
  conv => lhs; rw [e, bytesAt_add, bytesAt_succ]

theorem crcBitwise_ne_of_single_byte (mem mem' : Mem) (c a a' n i : Nat) (hc : c < 2 ^ 32)
    (hi : i < n) (hne : load8 mem (a + i) ≠ load8 mem' (a' + i))
    (heq : ∀ j, j < n → j ≠ i → load8 mem (a + j) = load8 mem' (a' + j)) :
    crcBitwise c (bytesAt mem a n) ≠ crcBitwise c (bytesAt mem' a' n) := by
  have hpre : bytesAt mem a i = bytesAt mem' a' i :=
    bytesAt_congr _ _ _ _ _ (fun j hj => heq j (by omega) (by omega))
  have hsuf : bytesAt mem (a + i + 1) (n - i - 1) = bytesAt mem' (a' + i + 1) (n - i - 1) := by
    apply bytesAt_congr
    intro j hj
    have := heq (i + 1 + j) (by omega) (by omega)
    rw [show a + (i + 1 + j) = a + i + 1 + j by omega,
      show a' + (i + 1 + j) = a' + i + 1 + j by omega] at this
    exact this
  rw [bytesAt_split_at mem a n i hi, bytesAt_split_at mem' a' n i hi, hpre, hsuf]
  exact crcBitwise_ne_of_single c _ _ _ _ hc (bytesAt_lt _ _ _) (bytesAt_lt _ _ _)
    (load8_lt _ _) (load8_lt _ _) hne

/-! ## The claims, continued -/

/-- C11: the capability flag is probed at most once.  Starting from the
dispatcher state in which the static flag is unset, over every sequence of
calls of `Crc32C`: after each call the probe has been evaluated exactly once
(by the first call) and the flag holds one fixed value, so every call takes
the same path and returns what `Crc32C` returns for the first probe result;
a call made in a state whose flag is already set never evaluates the probe;
and later answers of the probe have no influence. -/
theorem Crc32C_flag_probed_once (haveSse42 : Nat → Bool) (ov : Bool)
    (xs : List CallArgs) :
    Crc32CCalls haveSse42 ov Dispatcher.initial xs
      = xs.map (fun x =>
          (({ hardware := some (if ov then false else haveSse42 0), probes := 1 } : Dispatcher),
            Crc32C (haveSse42 0) ov x.mem x.crc x.buffer x.bytes)) ∧
    (∀ r ∈ Crc32CCalls haveSse42 ov Dispatcher.initial xs,
      r.1.probes = 1 ∧ r.1.hardware = some (if ov then false else haveSse42 0)) ∧
    (∀ (d : Dispatcher) (h : Bool) (x : CallArgs), d.hardware = some h →
      (Crc32CCall haveSse42 ov d x).1.probes = d.probes) ∧
    (∀ probe : Nat → Bool, probe 0 = haveSse42 0 →
      Crc32CCalls probe ov Dispatcher.initial xs
        = Crc32CCalls haveSse42 ov Dispatcher.initial xs) := by
  refine ⟨Crc32CCalls_initial haveSse42 ov xs, ?_, ?_, ?_⟩
  · intro r hr
    rw [Crc32CCalls_initial, List.mem_map] at hr
    obtain ⟨x, _, rfl⟩ := hr
    exact ⟨rfl, rfl⟩
  · intro d h x hd
    simp only [Crc32CCall, staticInit, hd]
  · intro probe hp
    rw [Crc32CCalls_initial, Crc32CCalls_initial, hp]

/-- C12: the standard CRC32C check value under the conventional pre/post
inversion.  For the nine ASCII bytes "123456789", wherever they are stored, the
32-bit complement of the checksum computed from accumulator `0xFFFFFFFF`
equals `0xE3069283`, through the dispatcher, on the software path and on the
hardware path. -/
theorem Crc32C_digits_inverted (hw ov : Bool) (mem : Mem) (a : Nat)
    (hB : bytesAt mem a 9 = digits) :
    Crc32C hw ov mem 0xFFFFFFFF a 9 ^^^ 0xFFFFFFFF = 0xE3069283 ∧
    0xFFFFFFFF - Crc32C hw ov mem 0xFFFFFFFF a 9 = 0xE3069283 ∧
    softwareCrc32C mem 0xFFFFFFFF a 9 ^^^ 0xFFFFFFFF = 0xE3069283 ∧
    intelCrc32C mem 0xFFFFFFFF a 9 ^^^ 0xFFFFFFFF = 0xE3069283 := by
  have h1 : Crc32C hw ov mem 0xFFFFFFFF a 9 = 0x1CF96D7C := by
    rw [Crc32C_eq_crcBitwise hw ov mem _ a 9 (by decide) (by decide), hB]
    exact crcBitwise_digits_ones
  have h2 : softwareCrc32C mem 0xFFFFFFFF a 9 = 0x1CF96D7C := by
    unfold softwareCrc32C
    rw [softwareRun_crc mem _ a 9 (by decide) (by decide), hB]
    exact crcBitwise_digits_ones
  have h3 : intelCrc32C mem 0xFFFFFFFF a 9 = 0x1CF96D7C := by
    unfold intelCrc32C
    rw [intelRun_crc mem _ a 9 (by decide), hB]
    exact crcBitwise_digits_ones
  rw [h1, h2, h3]
  decide

theorem Crc32C_digits_inverted_witness :
    bytesAt (place 0x2001 digits) 0x2001 9 = digits ∧
    (Crc32C true false (place 0x2001 digits) 0xFFFFFFFF 0x2001 9 ^^^ 0xFFFFFFFF
        = 0xE3069283 ∧
      0xFFFFFFFF - Crc32C true false (place 0x2001 digits) 0xFFFFFFFF 0x2001 9
        = 0xE3069283 ∧
      softwareCrc32C (place 0x2001 digits) 0xFFFFFFFF 0x2001 9 ^^^ 0xFFFFFFFF
        = 0xE3069283 ∧
      intelCrc32C (place 0x2001 digits) 0xFFFFFFFF 0x2001 9 ^^^ 0xFFFFFFFF
        = 0xE3069283) :=
  ⟨by decide, Crc32C_digits_inverted true false (place 0x2001 digits) 0x2001 (by decide)⟩


/-- C13: single-byte corruption is always detected.  For every 32-bit
accumulator `c` and every length `n ≥ 1`, if two buffers of `n` bytes differ
at exactly one position `i < n`, their checksums from `c` differ, through the
dispatcher and on each path. -/
theorem Crc32C_single_byte_detected (hw ov : Bool) (mem mem' : Mem)
    (c a a' n i : Nat) (hc : c < 2 ^ 32) (hn : n < 2 ^ 64) (hi : i < n)
    (hne : load8 mem (a + i) ≠ load8 mem' (a' + i))
    (heq : ∀ j, j < n → j ≠ i → load8 mem (a + j) = load8 mem' (a' + j)) :
    Crc32C hw ov mem c a n ≠ Crc32C hw ov mem' c a' n ∧
    softwareCrc32C mem c a n ≠ softwareCrc32C mem' c a' n ∧
    intelCrc32C mem c a n ≠ intelCrc32C mem' c a' n := by
  have key := crcBitwise_ne_of_single_byte mem mem' c a a' n i hc hi hne heq
  refine ⟨?_, ?_, ?_⟩
  · rw [Crc32C_eq_crcBitwise hw ov mem c a n hc hn,
      Crc32C_eq_crcBitwise hw ov mem' c a' n hc hn]
    exact key
  · unfold softwareCrc32C
    rw [softwareRun_crc mem c a n hc hn, softwareRun_crc mem' c a' n hc hn]
    exact key
  · unfold intelCrc32C
    rw [intelRun_crc mem c a n hc, intelRun_crc mem' c a' n hc]
    exact key

theorem Crc32C_single_byte_detected_witness :
    (0xCAFE < 2 ^ 32 ∧ 9 < 2 ^ 64 ∧ 4 < 9 ∧
      load8 (place 3 digits) (3 + 4)
        ≠ load8 (place 3 [0x31, 0x32, 0x33, 0x34, 0xB5, 0x36, 0x37, 0x38, 0x39]) (3 + 4) ∧
      ∀ j, j < 9 → j ≠ 4 → load8 (place 3 digits) (3 + j)
        = load8 (place 3 [0x31, 0x32, 0x33, 0x34, 0xB5, 0x36, 0x37, 0x38, 0x39]) (3 + j)) ∧
    (Crc32C false false (place 3 digits) 0xCAFE 3 9
        ≠ Crc32C false false
            (place 3 [0x31, 0x32, 0x33, 0x34, 0xB5, 0x36, 0x37, 0x38, 0x39]) 0xCAFE 3 9 ∧
      softwareCrc32C (place 3 digits) 0xCAFE 3 9
        ≠ softwareCrc32C
            (place 3 [0x31, 0x32, 0x33, 0x34, 0xB5, 0x36, 0x37, 0x38, 0x39]) 0xCAFE 3 9 ∧
      intelCrc32C (place 3 digits) 0xCAFE 3 9
        ≠ intelCrc32C
            (place 3 [0x31, 0x32, 0x33, 0x34, 0xB5, 0x36, 0x37, 0x38, 0x39]) 0xCAFE 3 9) :=
  ⟨⟨by decide, by decide, by decide, by decide, by decide⟩,
    Crc32C_single_byte_detected false false (place 3 digits)
      (place 3 [0x31, 0x32, 0x33, 0x34, 0xB5, 0x36, 0x37, 0x38, 0x39]) 0xCAFE 3 3 9 4
      (by decide) (by decide) (by decide) (by decide) (by decide)⟩

/-- C14: all-zero input from accumulator 0 gives 0.  If the `m` bytes at
address `a` are all zero, then the checksum of these `m` bytes from
accumulator 0 is 0, through the dispatcher and on each path; and the checksum
from accumulator 0 of these `m` zero bytes followed by `n` further bytes
equals the checksum from accumulator 0 of the `n` further bytes alone. -/
theorem Crc32C_zeros (hw ov : Bool) (mem : Mem) (a m n : Nat) (hmn : m + n < 2 ^ 64)
    (hz : ∀ i, i < m → load8 mem (a + i) = 0) :
    Crc32C hw ov mem 0 a m = 0 ∧
    softwareCrc32C mem 0 a m = 0 ∧
    intelCrc32C mem 0 a m = 0 ∧
    Crc32C hw ov mem 0 a (m + n) = Crc32C hw ov mem 0 (a + m) n := by
  have hm : m < 2 ^ 64 := by omega
  have hn : n < 2 ^ 64 := by omega
  have h0 : (0 : Nat) < 2 ^ 32 := by decide
  have hb : crcBitwise 0 (bytesAt mem a m) = 0 := by
    rw [bytesAt_zeros mem a m hz]
    exact crcBitwise_zeros m
  refine ⟨?_, ?_, ?_, ?_⟩
  · rw [Crc32C_eq_crcBitwise hw ov mem 0 a m h0 hm, hb]
  · unfold softwareCrc32C
    rw [softwareRun_crc mem 0 a m h0 hm, hb]
  · unfold intelCrc32C
    rw [intelRun_crc mem 0 a m h0, hb]
  · rw [Crc32C_eq_crcBitwise hw ov mem 0 a (m + n) h0 hmn,
      Crc32C_eq_crcBitwise hw ov mem 0 (a + m) n h0 hn, bytesAt_add, crcBitwise_append, hb]

theorem Crc32C_zeros_witness :
    (32 + 9 < 2 ^ 64 ∧ ∀ i, i < 32 → load8 (place (5 + 32) digits) (5 + i) = 0) ∧
    (Crc32C true false (place (5 + 32) digits) 0 5 32 = 0 ∧
      softwareCrc32C (place (5 + 32) digits) 0 5 32 = 0 ∧
      intelCrc32C (place (5 + 32) digits) 0 5 32 = 0 ∧
      Crc32C true false (place (5 + 32) digits) 0 5 (32 + 9)
        = Crc32C true false (place (5 + 32) digits) 0 (5 + 32) 9) :=
  ⟨⟨by decide, by decide⟩,
    Crc32C_zeros true false (place (5 + 32) digits) 5 32 9 (by decide) (by decide)⟩

/-- C15: xor-linearity.  For all 32-bit accumulators `c1`, `c2` and all
buffers `X`, `Y` of the same length `n`, if a third buffer holds the bytewise
xor of `X` and `Y`, then its checksum from `c1 xor c2` is the xor of the
checksum of `X` from `c1` and the checksum of `Y` from `c2`, through the
dispatcher and on each path. -/
theorem Crc32C_xor_linear (hw ov : Bool) (mem memX memY : Mem)
    (c1 c2 a aX aY n : Nat) (h1 : c1 < 2 ^ 32) (h2 : c2 < 2 ^ 32) (hn : n < 2 ^ 64)
    (hxor : ∀ i, i < n → load8 mem (a + i) = load8 memX (aX + i) ^^^ load8 memY (aY + i)) :
    Crc32C hw ov mem (c1 ^^^ c2) a n
      = Crc32C hw ov memX c1 aX n ^^^ Crc32C hw ov memY c2 aY n ∧
    softwareCrc32C mem (c1 ^^^ c2) a n
      = softwareCrc32C memX c1 aX n ^^^ softwareCrc32C memY c2 aY n ∧
    intelCrc32C mem (c1 ^^^ c2) a n
      = intelCrc32C memX c1 aX n ^^^ intelCrc32C memY c2 aY n := by
  have h12 : c1 ^^^ c2 < 2 ^ 32 := Nat.xor_lt_two_pow h1 h2
  have key : crcBitwise (c1 ^^^ c2) (bytesAt mem a n)
      = crcBitwise c1 (bytesAt memX aX n) ^^^ crcBitwise c2 (bytesAt memY aY n) := by
    rw [bytesAt_xorBytes mem memX memY a aX aY n hxor]
    apply crcBitwise_xorBytes
    rw [length_bytesAt, length_bytesAt]
  refine ⟨?_, ?_, ?_⟩
  · rw [Crc32C_eq_crcBitwise hw ov mem _ a n h12 hn,
      Crc32C_eq_crcBitwise hw ov memX c1 aX n h1 hn,
      Crc32C_eq_crcBitwise hw ov memY c2 aY n h2 hn, key]
  · unfold softwareCrc32C
    rw [softwareRun_crc mem _ a n h12 hn, softwareRun_crc memX c1 aX n h1 hn,
      softwareRun_crc memY c2 aY n h2 hn, key]
  · unfold intelCrc32C
    rw [intelRun_crc mem _ a n h12, intelRun_crc memX c1 aX n h1,
      intelRun_crc memY c2 aY n h2, key]

theorem Crc32C_xor_linear_witness :
    (0xF0F0 < 2 ^ 32 ∧ 0xFFFFFFFF < 2 ^ 32 ∧ 9 < 2 ^ 64 ∧
      ∀ i, i < 9 → load8 (place 1 (xorBytes digits digits.reverse)) (1 + i)
        = load8 (place 2 digits) (2 + i) ^^^ load8 (place 3 digits.reverse) (3 + i)) ∧
    (Crc32C true false (place 1 (xorBytes digits digits.reverse)) (0xF0F0 ^^^ 0xFFFFFFFF) 1 9
        = Crc32C true false (place 2 digits) 0xF0F0 2 9
          ^^^ Crc32C true false (place 3 digits.reverse) 0xFFFFFFFF 3 9 ∧
      softwareCrc32C (place 1 (xorBytes digits digits.reverse)) (0xF0F0 ^^^ 0xFFFFFFFF) 1 9
        = softwareCrc32C (place 2 digits) 0xF0F0 2 9
          ^^^ softwareCrc32C (place 3 digits.reverse) 0xFFFFFFFF 3 9 ∧
      intelCrc32C (place 1 (xorBytes digits digits.reverse)) (0xF0F0 ^^^ 0xFFFFFFFF) 1 9
        = intelCrc32C (place 2 digits) 0xF0F0 2 9
          ^^^ intelCrc32C (place 3 digits.reverse) 0xFFFFFFFF 3 9) :=
  ⟨⟨by decide, by decide, by decide, by decide⟩,
    Crc32C_xor_linear true false (place 1 (xorBytes digits digits.reverse)) (place 2 digits)
      (place 3 digits.reverse) 0xF0F0 0xFFFFFFFF 1 2 3 9
      (by decide) (by decide) (by decide) (by decide)⟩

/-- C16: table indexing is always in bounds and unaffected by the signedness
of `char`.  For every accumulator and every byte in memory, the index
`(crc ^ x) & 0xFF` of the single-byte update, with `x` the sign-extended
`char`, equals `(crc & 0xFF) xor b` with `b` the unsigned byte, and is below
256; each of the eight tables has 256 entries; and `softwareCrc32C` run with
bounds-checked table reads never fails and yields the state of the unchecked
routine, for every accumulator, address and length. -/
theorem softwareCrc32C_index_in_bounds (mem : Mem) (crc p data length : Nat) :
    (crc ^^^ loadChar mem p) &&& 0x000000FF = (crc &&& 0x000000FF) ^^^ load8 mem p ∧
    (crc ^^^ loadChar mem p) &&& 0x000000FF < 256 ∧
    load8 mem p < 256 ∧
    (crc_tableil8_o32.length = 256 ∧ crc_tableil8_o40.length = 256 ∧
      crc_tableil8_o48.length = 256 ∧ crc_tableil8_o56.length = 256 ∧
      crc_tableil8_o64.length = 256 ∧ crc_tableil8_o72.length = 256 ∧
      crc_tableil8_o80.length = 256 ∧ crc_tableil8_o88.length = 256) ∧
    (∀ s : Machine, softByteChecked mem s = some (softByte mem s)) ∧
    (∀ s : Machine, softBody8Checked mem s = some (softBody8 mem s)) ∧
    softwareRunChecked mem crc data length = some (softwareRun mem crc data length) := by
  refine ⟨?_, and_255_lt _, load8_lt mem p,
    ⟨length_slicingTable 0, length_slicingTable 1, length_slicingTable 2,
      length_slicingTable 3, length_slicingTable 4, length_slicingTable 5,
      length_slicingTable 6, length_slicingTable 7⟩,
    softByteChecked_eq mem, softBody8Checked_eq mem, softwareRunChecked_eq mem crc data length⟩
  rw [Nat.and_xor_distrib_right, and_255 (loadChar mem p), loadChar_mod]


/-! ## Read counts of the software path -/

theorem covered_append (xs ys : List (Nat × Nat)) :
    covered (xs ++ ys) = covered xs ++ covered ys := by
  simp [covered]

theorem covered_singles (p k : Nat) :
    covered (chunksFrom p (List.replicate k 1)) = List.range' p k := by
  rw [covered_chunksFrom, sum_replicate_nat, Nat.mul_one]

theorem count_range' (p k q : Nat) :
    (List.range' p k).count q = if p ≤ q ∧ q < p + k then 1 else 0 := by
  rw [List.count_eq_of_nodup (List.nodup_range' p k)]
  simp only [List.mem_range'_1]

theorem covered_groupRegions (p : Nat) :
    covered (groupRegions p)
      = List.range' p 4 ++ (List.range' (p + 4) 4 ++ (List.range' (p + 4) 4
          ++ List.range' (p + 4) 4)) := by
  simp [covered, groupRegions]

theorem count_covered_groupsFrom (p k q : Nat) :
    (covered (groupsFrom p k)).count q
      = if p ≤ q ∧ q < p + 8 * k then (if (q - p) % 8 < 4 then 1 else 3) else 0 := by
  induction k generalizing p with
  | zero =>
    have h : ¬(p ≤ q ∧ q < p + 8 * 0) := by omega
    rw [if_neg h]
    rfl
  | succ k ih =>
    simp only [groupsFrom, covered_append, covered_groupRegions, List.count_append,
      count_range', ih]
    split_ifs <;> omega

theorem count_covered_software (a L G E q : Nat) :
    (covered (chunksFrom a (List.replicate L 1) ++ groupsFrom (a + L) G ++
        chunksFrom (a + L + 8 * G) (List.replicate E 1))).count q
      = softwareReadCount a L (8 * G) (L + 8 * G + E) q := by
  simp only [covered_append, List.count_append, covered_singles, count_range',
    count_covered_groupsFrom, softwareReadCount]
  split_ifs <;> omega

/-- C10 (as stated, refuted): for a buffer of 8 bytes at the 4-byte-aligned
address 16, `softwareCrc32C` runs one bulk-loop iteration, which reads the
bytes at offsets 4..7 three times; the sequence of byte addresses read is not
`16, ..., 23`, each once. -/
theorem softwareCrc32C_rereads_second_word :
    covered (softwareRun (place 16 digits) 0 16 8).log ≠ List.range' 16 8 ∧
    (softwareRun (place 16 digits) 0 16 8).log = [(16, 4), (20, 4), (20, 4), (20, 4)] ∧
    (covered (softwareRun (place 16 digits) 0 16 8).log).count 20 = 3 := by
  set_option maxRecDepth 100000 in decide

/-- C10 (amended): software three-phase partition.  For every buffer address
`a` and every 64-bit length `n`, with `L = min n (initialBytes a)`,
`R = (n - L) AND NOT 7` and `E = n - L - R`: `initialBytes a = (-a) mod 4 ≤ 3`;
when `L < n` or `L = (-a) mod 4` the address `a + L` is a multiple of 4; `R` is
a multiple of 8, `E < 8` and `L + R + E = n`; `softwareCrc32C` reads `L`
single bytes from `a`, then `R / 8` eight-byte groups from `a + L`, then `E`
single bytes from `a + L + R`, in this order, where each group reads its first
word once and its second word three times; no byte outside `a, ..., a + n - 1`
is read, every byte inside is read, and the byte at address `q` is read
exactly `softwareReadCount a L R n q` times: once in the leading and trailing
phases and in the first word of a group, three times in the second word of a
group. -/
theorem softwareCrc32C_partition (mem : Mem) (crc a n L R E : Nat) (hn : n < 2 ^ 64)
    (hL : L = min n (initialBytes a)) (hR : R = (n - L) &&& (2 ^ 64 - 1 - 7))
    (hE : E = n - L - R) :
    initialBytes a = (4 - a % 4) % 4 ∧ initialBytes a ≤ 3 ∧
    ((L < n ∨ L = initialBytes a) → (a + L) % 4 = 0) ∧
    R % 8 = 0 ∧ E < 8 ∧ L + R + E = n ∧
    (softwareRun mem crc a n).log
      = chunksFrom a (List.replicate L 1) ++ groupsFrom (a + L) (R / 8) ++
        chunksFrom (a + L + R) (List.replicate E 1) ∧
    (∀ q, (covered (softwareRun mem crc a n).log).count q = softwareReadCount a L R n q) ∧
    (∀ q ∈ covered (softwareRun mem crc a n).log, a ≤ q ∧ q < a + n) ∧
    (∀ q, a ≤ q → q < a + n → q ∈ covered (softwareRun mem crc a n).log) := by
  have hib := initialBytes_eq a
  have hLn : n - L < 2 ^ 64 := by omega
  have hR' : R = (n - L) - (n - L) % 8 := by
    rw [hR]
    exact and_not_seven _ hLn
  have hL' : min n ((4 - a % 4) % 4) = L := by rw [hL, hib]
  have e1 : (n - L) / 8 = R / 8 := by omega
  have e2 : (n - L) % 8 = E := by omega
  have e3 : 8 * (R / 8) = R := by omega
  have e4 : L + 8 * (R / 8) + E = n := by omega
  have hlog : (softwareRun mem crc a n).log
      = chunksFrom a (List.replicate L 1) ++ groupsFrom (a + L) (R / 8) ++
        chunksFrom (a + L + 8 * (R / 8)) (List.replicate E 1) := by
    rw [softwareRun_log mem crc a n hn, hL', e1, e2]
  have hcount : ∀ q, (covered (softwareRun mem crc a n).log).count q
      = softwareReadCount a L R n q := by
    intro q
    have e5 : L + R + E = n := by omega
    rw [hlog, count_covered_software, e3, e5]
  refine ⟨hib, by omega, ?_, by omega, by omega, by omega, ?_, hcount, ?_, ?_⟩
  · intro h
    have : L = initialBytes a := by
      rcases h with h | h
      · rw [hL] at h ⊢
        omega
      · exact h
    omega
  · rw [hlog, e3]
  · intro q hq
    have h1 : 0 < (covered (softwareRun mem crc a n).log).count q :=
      List.count_pos_iff.mpr hq
    rw [hcount] at h1
    unfold softwareReadCount at h1
    split_ifs at h1 <;> omega
  · intro q h1 h2
    apply List.count_pos_iff.mp
    rw [hcount]
    unfold softwareReadCount
    split_ifs <;> omega

theorem softwareCrc32C_partition_witness :
    (21 < 2 ^ 64 ∧ 3 = min 21 (initialBytes 0x7ffd0001) ∧
      16 = (21 - 3) &&& (2 ^ 64 - 1 - 7) ∧ 2 = 21 - 3 - 16) ∧
    (initialBytes 0x7ffd0001 = (4 - 0x7ffd0001 % 4) % 4 ∧ initialBytes 0x7ffd0001 ≤ 3 ∧
      ((3 < 21 ∨ 3 = initialBytes 0x7ffd0001) → (0x7ffd0001 + 3) % 4 = 0) ∧
      16 % 8 = 0 ∧ 2 < 8 ∧ 3 + 16 + 2 = 21 ∧
      (softwareRun (fun _ => 0) 0 0x7ffd0001 21).log
        = chunksFrom 0x7ffd0001 (List.replicate 3 1) ++
          groupsFrom (0x7ffd0001 + 3) (16 / 8) ++
          chunksFrom (0x7ffd0001 + 3 + 16) (List.replicate 2 1) ∧
      (∀ q, (covered (softwareRun (fun _ => 0) 0 0x7ffd0001 21).log).count q
        = softwareReadCount 0x7ffd0001 3 16 21 q) ∧
      (∀ q ∈ covered (softwareRun (fun _ => 0) 0 0x7ffd0001 21).log,
        0x7ffd0001 ≤ q ∧ q < 0x7ffd0001 + 21) ∧
      (∀ q, 0x7ffd0001 ≤ q → q < 0x7ffd0001 + 21 →
        q ∈ covered (softwareRun (fun _ => 0) 0 0x7ffd0001 21).log)) :=
  ⟨⟨by decide, by decide, by decide, by decide⟩,
    softwareCrc32C_partition (fun _ => 0) 0 0x7ffd0001 21 3 16 2
      (by decide) (by decide) (by decide) (by decide)⟩

end RAMCloud
